import Mathlib

/-!
# Verification of the playlist sync core (apple-to-spotify sync)

Shallow embedding of the repository's sync core:

* `normalize` — `src/lib/normalize.ts`
* `searchTrack`, `getExistingPlaylistTracks`, `syncPlaylist`, `spotifyFetch`
  (429 handling) — `src/lib/spotify.ts`

JavaScript strings are modelled as `List Char` / `String`; the remote
Spotify API is modelled as an explicit environment of response functions;
JavaScript `Set`s are modelled as lists used only through membership;
promise rejection (thrown errors) is modelled with `Except`.
-/

namespace SyncSpec

/-! ## JS character classes

`isJsWhitespace` is the ECMAScript `\s` class (WhiteSpace ∪ LineTerminator),
which is also the set of characters removed by `String.prototype.trim`.
`isLineTerm` is the ECMAScript LineTerminator set, the characters *not*
matched by `.` in a regex without the `s` flag. -/

def isJsWhitespace (c : Char) : Bool :=
  c = ' ' || c = '\t' || c = '\n' || c.toNat = 11 || c.toNat = 12 || c = '\r' ||
  c.toNat = 0xa0 || c.toNat = 0x1680 ||
  (0x2000 ≤ c.toNat && c.toNat ≤ 0x200a) ||
  c.toNat = 0x2028 || c.toNat = 0x2029 || c.toNat = 0x202f ||
  c.toNat = 0x205f || c.toNat = 0x3000 || c.toNat = 0xfeff

def isLineTerm (c : Char) : Bool :=
  c = '\n' || c = '\r' || c.toNat = 0x2028 || c.toNat = 0x2029

/-- The backtick character (one of the apostrophe variants normalized by
`normalize`), named to keep the accent character out of the source text. -/
def backtickChar : Char := Char.ofNat 96

/-! ## normalize (src/lib/normalize.ts)

```
export function normalize(s: string): string {
  let result = s.toLowerCase().trim();
  result = result.replace(/\s*[(\[](feat\.?|ft\.?|featuring).*?[)\]]/g, "");
  result = result.replace(/\s*(feat\.?|ft\.?|featuring)\s+.*$/g, "");
  result = result.replace(/['
'`]/g, "'");   // character class is  ' ' `  (straight quote twice, backtick)
  result = result.replace(/\s+/g, " ");
  return result.trim();
}
```

Each `String.prototype.replace` call with a global regex is embedded as a
left-to-right scanner that mirrors the JS regex engine on that particular
pattern: leftmost match, greedy `\s*`/`\s+` (backtracking is accounted for
where it matters, see the comments), lazy `.*?`, `.` not matching line
terminators, `$` only at end of input, and scanning resuming after the end
of each replaced match (replacements are not re-scanned). -/

/-- Model of `toLowerCase`, per character by the ASCII case mapping
`Char.toLower` (the titles and artist names handled by the app are treated
at the ASCII fragment of the Unicode mapping). -/
def jsToLower (cs : List Char) : List Char := cs.map Char.toLower

/-- Model of `String.prototype.trim`: drop JS whitespace from both ends. -/
def jsTrim (cs : List Char) : List Char :=
  (((cs.dropWhile isJsWhitespace).reverse).dropWhile isJsWhitespace).reverse

/-- The lazy tail `.*?[)\]]` of the bracketed-featuring regex: scan for the
first `)` or `]`, failing at a line terminator (which `.` cannot cross) or
at end of input. Returns the remainder after the closing bracket. -/
def findCloseBracket : List Char → Option (List Char)
  | [] => none
  | c :: cs =>
    if c = ')' ∨ c = ']' then some cs
    else if isLineTerm c then none
    else findCloseBracket cs

/-- Attempt the match `\s*[(\[](feat\.?|ft\.?|featuring).*?[)\]]` at the
head of `cs`; on success return the input remaining after the match.
`\s*` is maximal (a shorter choice puts a whitespace character where the
bracket must be); after `feat` the alternatives `ft` (needs `t` where `e`
stands) and `featuring` (whose tail `.*?` sees a subset of the `feat`
tail) can never succeed where `feat` failed, and consuming or not
consuming the optional dot leads to the same first closing bracket, so the
single `findCloseBracket` call accounts for all backtracking. -/
def tryParenFeat (cs : List Char) : Option (List Char) :=
  match cs.dropWhile isJsWhitespace with
  | c :: cs' =>
    if c = '(' ∨ c = '[' then
      match cs' with
      | 'f' :: 'e' :: 'a' :: 't' :: r => findCloseBracket r
      | 'f' :: 't' :: r => findCloseBracket r
      | _ => none
    else none
  | [] => none

theorem findCloseBracket_length {cs r : List Char}
    (h : findCloseBracket cs = some r) : r.length < cs.length := by
  induction cs with
  | nil => simp [findCloseBracket] at h
  | cons c cs ih =>
    unfold findCloseBracket at h
    split at h
    · cases h; simp
    · split at h
      · cases h
      · have := ih h
        simp only [List.length_cons]
        omega

theorem length_dropWhile_le (p : Char → Bool) (l : List Char) :
    (l.dropWhile p).length ≤ l.length :=
  (List.dropWhile_suffix p).length_le

theorem tryParenFeat_length {cs r : List Char}
    (h : tryParenFeat cs = some r) : r.length < cs.length := by
  unfold tryParenFeat at h
  have hd := length_dropWhile_le isJsWhitespace cs
  split at h
  case h_2 => cases h
  case h_1 c cs' heq =>
    rw [heq] at hd
    split at h
    · split at h
      · have := findCloseBracket_length h
        simp_all; omega
      · have := findCloseBracket_length h
        simp_all; omega
      · cases h
    · cases h

/-- Scanner for the replace call removing
`\s*[(\[](feat\.?|ft\.?|featuring).*?[)\]]`: remove every
(leftmost-first, non-overlapping) bracketed featuring clause, resuming the
scan after each removed match. Structured with a fuel argument so that the
recursion is structural (each step strictly shortens the input, so fuel
equal to the input length always suffices). -/
def removeParenFeatAux : Nat → List Char → List Char
  | 0, _ => []
  | _ + 1, [] => []
  | fuel + 1, c :: cs =>
    (tryParenFeat (c :: cs)).elim (c :: removeParenFeatAux fuel cs)
      (fun rest => removeParenFeatAux fuel rest)

/-- Model of the replace call removing
`\s*[(\[](feat\.?|ft\.?|featuring).*?[)\]]`. -/
def removeParenFeat (cs : List Char) : List Char :=
  removeParenFeatAux cs.length cs

theorem removeParenFeatAux_nil (f : Nat) : removeParenFeatAux f [] = [] := by
  cases f <;> rfl

/-- Fuel is irrelevant for `removeParenFeatAux` as long as it covers the
input length. -/
theorem removeParenFeatAux_fuel :
    ∀ (f₁ : Nat) (cs : List Char) (f₂ : Nat), cs.length ≤ f₁ → cs.length ≤ f₂ →
      removeParenFeatAux f₁ cs = removeParenFeatAux f₂ cs := by
  intro f₁
  induction f₁ using Nat.strong_induction_on with
  | _ f₁ ih =>
    intro cs f₂ h₁ h₂
    cases cs with
    | nil => rw [removeParenFeatAux_nil, removeParenFeatAux_nil]
    | cons c cs =>
      cases f₁ with
      | zero => simp at h₁
      | succ g₁ =>
        cases f₂ with
        | zero => simp at h₂
        | succ g₂ =>
          rcases h : tryParenFeat (c :: cs) with _ | rest
          · simp only [removeParenFeatAux, h, Option.elim]
            simp only [List.length_cons] at h₁ h₂
            rw [ih g₁ (by omega) cs g₂ (by omega) (by omega)]
          · simp only [removeParenFeatAux, h, Option.elim]
            have hlen := tryParenFeat_length h
            simp only [List.length_cons] at h₁ h₂ hlen
            exact ih g₁ (by omega) rest g₂ (by omega) (by omega)

theorem removeParenFeat_eq_some {c : Char} {cs rest : List Char}
    (h : tryParenFeat (c :: cs) = some rest) :
    removeParenFeat (c :: cs) = removeParenFeat rest := by
  have hlen := tryParenFeat_length h
  simp only [List.length_cons] at hlen
  simp only [removeParenFeat, List.length_cons, removeParenFeatAux, h, Option.elim]
  exact removeParenFeatAux_fuel _ rest _ (by omega) (le_refl _)

theorem removeParenFeat_eq_none {c : Char} {cs : List Char}
    (h : tryParenFeat (c :: cs) = none) :
    removeParenFeat (c :: cs) = c :: removeParenFeat cs := by
  simp only [removeParenFeat, List.length_cons, removeParenFeatAux, h, Option.elim]

/-- Tail condition `\s+.*$` matched against the whole of `r`: a nonempty whitespace block
followed by line-terminator-free text reaching the end of the input.
Taking the maximal whitespace block is complete: a shorter block leaves
later whitespace characters to `.*`, which only makes the
line-terminator-free condition harder. -/
def wsThenRest (r : List Char) : Bool :=
  match r with
  | [] => false
  | c :: _ => isJsWhitespace c && (r.dropWhile isJsWhitespace).all (fun d => !(isLineTerm d))

/-- Attempt the match `\s*(feat\.?|ft\.?|featuring)\s+.*$` at the head of
`cs` (a match always extends to the end of the input). After a literal
`feat`, the `ft` alternative can never apply, but `featuring` can (when
`\s+` fails right after `feat`/`feat.`), so it is tried as well. -/
def trailFeatMatch (cs : List Char) : Bool :=
  match cs.dropWhile isJsWhitespace with
  | 'f' :: 'e' :: 'a' :: 't' :: rest =>
    (match rest with
     | '.' :: rest' => wsThenRest rest'
     | _ => wsThenRest rest)
    ||
    (match rest with
     | 'u' :: 'r' :: 'i' :: 'n' :: 'g' :: rest' => wsThenRest rest'
     | _ => false)
  | 'f' :: 't' :: rest =>
    (match rest with
     | '.' :: rest' => wsThenRest rest'
     | _ => wsThenRest rest)
  | _ => false

/-- Model of the replace call removing `\s*(feat\.?|ft\.?|featuring)\s+.*$`: the
leftmost match (if any) swallows everything to the end of the string. -/
def stripTrailingFeat : List Char → List Char
  | [] => []
  | c :: cs => if trailFeatMatch (c :: cs) then [] else c :: stripTrailingFeat cs

/-- Model of the apostrophe replace call, whose character class holds the straight
apostrophe (twice, a transcription of the curly variants) and the
backtick: map both to the straight apostrophe. -/
def fixApostrophes (cs : List Char) : List Char :=
  cs.map (fun c => if c = '\'' ∨ c = backtickChar then '\'' else c)

/-- Scanner for the replace call sending `\s+` to a single space: the flag
records whether the previous character was whitespace (i.e. whether the
scan is inside a run whose single space has already been emitted). -/
def collapseWsAux : Bool → List Char → List Char
  | _, [] => []
  | prevWs, c :: cs =>
    if isJsWhitespace c then
      if prevWs then collapseWsAux true cs else ' ' :: collapseWsAux true cs
    else c :: collapseWsAux false cs

/-- Model of the replace call sending `\s+` to a single space: each
maximal whitespace run becomes a single space. -/
def collapseWs (cs : List Char) : List Char := collapseWsAux false cs

/-- Function `normalize` from `src/lib/normalize.ts`, on character lists. -/
def normalizeL (cs : List Char) : List Char :=
  jsTrim (collapseWs (fixApostrophes (stripTrailingFeat (removeParenFeat (jsTrim (jsToLower cs))))))

/-- Function `normalize` from `src/lib/normalize.ts`. -/
def normalize (s : String) : String := ⟨normalizeL s.data⟩

example : normalize "  Hello   WORLD  " = "hello world" := by decide
example : normalize "Song (feat. Artist B)" = "song" := by decide
example : normalize "Song feat. Somebody" = "song" := by decide
example : normalize "defeat song" = "de" := by decide

/-! ## Character-level facts -/

theorem charOfNat_toNat {n : Nat} (hv : n.isValidChar) :
    (Char.ofNat n).toNat = n := by
  unfold Char.ofNat
  rw [dif_pos hv]
  rfl

/-- The ASCII lower-case map is idempotent. -/
theorem toLower_idem (c : Char) :
    Char.toLower (Char.toLower c) = Char.toLower c := by
  unfold Char.toLower
  by_cases h : c.toNat ≥ 65 ∧ c.toNat ≤ 90
  · have hv : (c.toNat + 32).isValidChar := Or.inl (by omega)
    have ht : (Char.ofNat (c.toNat + 32)).toNat = c.toNat + 32 := charOfNat_toNat hv
    rw [if_pos h, ht, if_neg (by omega)]
  · rw [if_neg h, if_neg h]

/-- Lower-casing a character other than the backtick never yields the
backtick. -/
theorem toLower_ne_backtick {c : Char} (h : c ≠ backtickChar) :
    Char.toLower c ≠ backtickChar := by
  unfold Char.toLower
  by_cases hr : c.toNat ≥ 65 ∧ c.toNat ≤ 90
  · rw [if_pos hr]
    intro he
    have hv : (c.toNat + 32).isValidChar := Or.inl (by omega)
    have ht : (Char.ofNat (c.toNat + 32)).toNat = c.toNat + 32 := charOfNat_toNat hv
    rw [he] at ht
    have : backtickChar.toNat = 96 := by decide
    omega
  · rw [if_neg hr]
    exact h

/-! ## Provenance and shape lemmas for the normalization pipeline -/

theorem head?_dropWhile {p : Char → Bool} {l : List Char} {c : Char}
    (h : (l.dropWhile p).head? = some c) : p c = false := by
  induction l with
  | nil => simp [List.dropWhile] at h
  | cons d l ih =>
    rw [List.dropWhile_cons] at h
    split at h
    · exact ih h
    · simp at h
      subst h
      simp_all

theorem jsTrim_sublist (l : List Char) : (jsTrim l).Sublist l := by
  unfold jsTrim
  have h₁ : (l.dropWhile isJsWhitespace).Sublist l :=
    (List.dropWhile_suffix _).sublist
  have h₂ :
      ((l.dropWhile isJsWhitespace).reverse.dropWhile isJsWhitespace).Sublist
        (l.dropWhile isJsWhitespace).reverse :=
    (List.dropWhile_suffix _).sublist
  have h₃ := h₂.reverse
  simp only [List.reverse_reverse] at h₃
  exact h₃.trans h₁

theorem mem_jsTrim {l : List Char} {c : Char} (h : c ∈ jsTrim l) : c ∈ l :=
  (jsTrim_sublist l).subset h

/-- The left-trimmed list starts with a non-whitespace character. -/
theorem jsTrim_head {l : List Char} {c : Char}
    (h : (jsTrim l).head? = some c) : isJsWhitespace c = false := by
  unfold jsTrim at h
  rw [List.head?_reverse] at h
  -- the getLast of the right-side dropWhile is the getLast of the inner
  -- reversed list (pruning a prefix keeps the last element), which is the
  -- head of the left-side dropWhile
  rcases hsuf :
      ((l.dropWhile isJsWhitespace).reverse.dropWhile isJsWhitespace) with _ | ⟨d, ds⟩
  · rw [hsuf] at h
    simp at h
  · rw [hsuf] at h
    obtain ⟨w, hw⟩ := (List.dropWhile_suffix
      (l := (l.dropWhile isJsWhitespace).reverse) isJsWhitespace)
    rw [hsuf] at hw
    have : (l.dropWhile isJsWhitespace).reverse.getLast? = some c := by
      rw [← hw, List.getLast?_append, h]
      rfl
    rw [List.getLast?_reverse] at this
    exact head?_dropWhile this

/-- The trimmed list ends with a non-whitespace character. -/
theorem jsTrim_getLast {l : List Char} {c : Char}
    (h : (jsTrim l).getLast? = some c) : isJsWhitespace c = false := by
  unfold jsTrim at h
  rw [List.getLast?_reverse] at h
  exact head?_dropWhile h

/-- Dropping nothing: a list whose head is not whitespace is untouched by
`dropWhile`. -/
theorem dropWhile_of_head {p : Char → Bool} {l : List Char}
    (h : ∀ c, l.head? = some c → p c = false) : l.dropWhile p = l := by
  cases l with
  | nil => rfl
  | cons c cs =>
    rw [List.dropWhile_cons, if_neg]
    simp [h c rfl]

/-- A list with non-whitespace head and last is unchanged by `jsTrim`. -/
theorem jsTrim_id {l : List Char}
    (hh : ∀ c, l.head? = some c → isJsWhitespace c = false)
    (hl : ∀ c, l.getLast? = some c → isJsWhitespace c = false) :
    jsTrim l = l := by
  unfold jsTrim
  rw [dropWhile_of_head hh, dropWhile_of_head (by simpa [List.head?_reverse] using hl),
    List.reverse_reverse]

theorem jsTrim_idem (l : List Char) : jsTrim (jsTrim l) = jsTrim l :=
  jsTrim_id (fun _ h => jsTrim_head h) (fun _ h => jsTrim_getLast h)

theorem jsTrim_infix_self (l : List Char) : jsTrim l <:+: l := by
  unfold jsTrim
  have h₁ : l.dropWhile isJsWhitespace <:+ l := List.dropWhile_suffix _
  have h₂ : ((l.dropWhile isJsWhitespace).reverse.dropWhile isJsWhitespace).reverse
      <+: l.dropWhile isJsWhitespace := by
    rw [← List.reverse_suffix]
    simpa using List.dropWhile_suffix
      (l := (l.dropWhile isJsWhitespace).reverse) isJsWhitespace
  exact h₂.isInfix.trans h₁.isInfix

theorem findCloseBracket_suffix {cs r : List Char}
    (h : findCloseBracket cs = some r) : r <:+ cs := by
  induction cs with
  | nil => simp [findCloseBracket] at h
  | cons c cs ih =>
    unfold findCloseBracket at h
    split at h
    · cases h
      exact List.suffix_cons _ _
    · split at h
      · cases h
      · exact (ih h).trans (List.suffix_cons _ _)

theorem tryParenFeat_suffix {cs r : List Char}
    (h : tryParenFeat cs = some r) : r <:+ cs := by
  unfold tryParenFeat at h
  have hd : cs.dropWhile isJsWhitespace <:+ cs := List.dropWhile_suffix _
  split at h
  case h_2 => cases h
  case h_1 c cs' heq =>
    rw [heq] at hd
    split at h
    · split at h
      · exact ((findCloseBracket_suffix h).trans
          ⟨[c, 'f', 'e', 'a', 't'], rfl⟩).trans hd
      · exact ((findCloseBracket_suffix h).trans ⟨[c, 'f', 't'], rfl⟩).trans hd
      · cases h
    · cases h

theorem mem_removeParenFeatAux {c : Char} :
    ∀ (f : Nat) (l : List Char), c ∈ removeParenFeatAux f l → c ∈ l := by
  intro f
  induction f with
  | zero => intro l h; simp [removeParenFeatAux] at h
  | succ g ih =>
    intro l h
    cases l with
    | nil => simp [removeParenFeatAux] at h
    | cons d ds =>
      rcases heq : tryParenFeat (d :: ds) with _ | rest
      · rw [removeParenFeatAux, heq] at h
        rcases List.mem_cons.1 h with h | h
        · simp [h]
        · exact List.mem_cons_of_mem _ (ih ds h)
      · rw [removeParenFeatAux, heq] at h
        exact (tryParenFeat_suffix heq).sublist.subset (ih rest h)

theorem mem_removeParenFeat {c : Char} {l : List Char}
    (h : c ∈ removeParenFeat l) : c ∈ l :=
  mem_removeParenFeatAux _ l h

theorem stripTrailingFeat_prefix_self (l : List Char) : stripTrailingFeat l <+: l := by
  induction l with
  | nil => simp [stripTrailingFeat]
  | cons c cs ih =>
    unfold stripTrailingFeat
    split
    · exact List.nil_prefix
    · obtain ⟨t, ht⟩ := ih
      exact ⟨t, by rw [List.cons_append, ht]⟩

theorem mem_stripTrailingFeat {c : Char} {l : List Char}
    (h : c ∈ stripTrailingFeat l) : c ∈ l :=
  (stripTrailingFeat_prefix_self l).sublist.subset h

theorem mem_fixApostrophes {c : Char} {l : List Char}
    (h : c ∈ fixApostrophes l) : c ∈ l ∨ c = '\'' := by
  unfold fixApostrophes at h
  obtain ⟨d, hd, he⟩ := List.mem_map.1 h
  by_cases hc : d = '\'' ∨ d = backtickChar
  · right
    rw [← he, if_pos hc]
  · left
    rw [← he, if_neg hc]
    exact hd

theorem fixApostrophes_no_backtick {c : Char} {l : List Char}
    (h : c ∈ fixApostrophes l) : c ≠ backtickChar := by
  unfold fixApostrophes at h
  obtain ⟨d, _, he⟩ := List.mem_map.1 h
  by_cases hc : d = '\'' ∨ d = backtickChar
  · rw [← he, if_pos hc]
    decide
  · rw [← he, if_neg hc]
    intro hd
    exact hc (Or.inr hd)

theorem fixApostrophes_id {l : List Char}
    (h : ∀ c ∈ l, c ≠ backtickChar) : fixApostrophes l = l := by
  unfold fixApostrophes
  have hc : ∀ c ∈ l, (if c = '\'' ∨ c = backtickChar then '\'' else c) = c := by
    intro c hc
    by_cases hq : c = '\''
    · rw [if_pos (Or.inl hq), hq]
    · rw [if_neg]
      push_neg
      exact ⟨hq, h c hc⟩
  induction l with
  | nil => rfl
  | cons d ds ih =>
    rw [List.map_cons, hc d (List.mem_cons_self d ds),
      ih (fun c hm => h c (List.mem_cons_of_mem _ hm))
         (fun c hm => hc c (List.mem_cons_of_mem _ hm))]

theorem mem_collapseWsAux {c : Char} :
    ∀ (l : List Char) (b : Bool), c ∈ collapseWsAux b l →
      (c ∈ l ∧ isJsWhitespace c = false) ∨ c = ' ' := by
  intro l
  induction l with
  | nil => intro b h; simp [collapseWsAux] at h
  | cons d ds ih =>
    intro b h
    unfold collapseWsAux at h
    split at h
    · split at h
      · rcases ih true h with ⟨h1, h2⟩ | h1
        · exact Or.inl ⟨List.mem_cons_of_mem _ h1, h2⟩
        · exact Or.inr h1
      · rcases List.mem_cons.1 h with h | h
        · exact Or.inr h
        · rcases ih true h with ⟨h1, h2⟩ | h1
          · exact Or.inl ⟨List.mem_cons_of_mem _ h1, h2⟩
          · exact Or.inr h1
    · rcases List.mem_cons.1 h with h | h
      · subst h
        simp_all
      · rcases ih false h with ⟨h1, h2⟩ | h1
        · exact Or.inl ⟨List.mem_cons_of_mem _ h1, h2⟩
        · exact Or.inr h1

/-- Inside a run (flag true) the next emitted character is not whitespace. -/
theorem collapseWsAux_head_true {c : Char} :
    ∀ l : List Char, (collapseWsAux true l).head? = some c →
      isJsWhitespace c = false := by
  intro l
  induction l with
  | nil => intro h; simp [collapseWsAux] at h
  | cons d ds ih =>
    intro h
    unfold collapseWsAux at h
    split at h
    · exact ih (by simpa using h)
    · simp at h
      simp_all

/-- Output of the whitespace-collapsing pass never has two adjacent
whitespace characters. -/
theorem collapseWsAux_chain :
    ∀ (l : List Char) (b : Bool),
      List.Chain' (fun a d => ¬(isJsWhitespace a = true ∧ isJsWhitespace d = true))
        (collapseWsAux b l) := by
  intro l
  induction l with
  | nil => intro b; simp [collapseWsAux]
  | cons d ds ih =>
    intro b
    unfold collapseWsAux
    split
    · split
      · exact ih true
      · rw [List.chain'_cons']
        refine ⟨?_, ih true⟩
        intro e he
        have := collapseWsAux_head_true ds he
        simp [this]
    · rw [List.chain'_cons']
      refine ⟨?_, ih false⟩
      intro e _
      simp_all

/-- When the head of the remainder is not whitespace, the run flag is
irrelevant. -/
theorem collapseWsAux_true_eq_false {l : List Char}
    (h : ∀ c, l.head? = some c → isJsWhitespace c = false) :
    collapseWsAux true l = collapseWsAux false l := by
  cases l with
  | nil => rfl
  | cons c cs =>
    have := h c rfl
    unfold collapseWsAux
    rw [if_neg (by simp [this]), if_neg (by simp [this])]

/-- A list whose whitespace is only isolated single spaces is unchanged by
the collapsing pass. -/
theorem collapseWs_id :
    ∀ l : List Char,
      (∀ c ∈ l, isJsWhitespace c = true → c = ' ') →
      List.Chain' (fun a d => ¬(isJsWhitespace a = true ∧ isJsWhitespace d = true)) l →
      collapseWs l = l := by
  intro l
  induction l with
  | nil => intro _ _; rfl
  | cons c cs ih =>
    intro hsp hch
    rw [List.chain'_cons'] at hch
    unfold collapseWs collapseWsAux
    by_cases hw : isJsWhitespace c = true
    · rw [if_pos hw, if_neg (by simp)]
      have hhead : ∀ d, cs.head? = some d → isJsWhitespace d = false := by
        intro d hd
        have := hch.1 d hd
        simp [hw] at this
        simp [this]
      rw [collapseWsAux_true_eq_false hhead]
      have : collapseWs cs = cs :=
        ih (fun d hd => hsp d (List.mem_cons_of_mem _ hd)) hch.2
      unfold collapseWs at this
      rw [this, hsp c (List.mem_cons_self c cs) hw]
    · rw [if_neg hw]
      have : collapseWs cs = cs :=
        ih (fun d hd => hsp d (List.mem_cons_of_mem _ hd)) hch.2
      unfold collapseWs at this
      rw [this]



/-! ## Featuring-token lemmas

A successful match of either stripping regex forces a literal `feat` or
`ft` to occur in the scanned text. -/

/-- The first featuring token, as a character list. -/
def featTok : List Char := ['f', 'e', 'a', 't']

/-- The second featuring token, as a character list. -/
def ftTok : List Char := ['f', 't']

/-- Absence of both featuring tokens from a character list. -/
def NoFeatTok (l : List Char) : Prop := ¬ featTok <:+: l ∧ ¬ ftTok <:+: l

theorem noFeatTok_of_tail {c : Char} {l : List Char} (h : NoFeatTok (c :: l)) :
    NoFeatTok l :=
  ⟨fun hf => h.1 (List.infix_cons hf), fun hf => h.2 (List.infix_cons hf)⟩

theorem tryParenFeat_token {cs r : List Char} (h : tryParenFeat cs = some r) :
    featTok <:+: cs ∨ ftTok <:+: cs := by
  unfold tryParenFeat at h
  have hd : cs.dropWhile isJsWhitespace <:+ cs := List.dropWhile_suffix _
  split at h
  case h_2 => cases h
  case h_1 c cs' heq =>
    rw [heq] at hd
    split at h
    · split at h
      · rename_i rr
        obtain ⟨w, hw⟩ := hd
        exact Or.inl ⟨w ++ [c], rr, by rw [← hw]; simp [featTok]⟩
      · rename_i rr
        obtain ⟨w, hw⟩ := hd
        exact Or.inr ⟨w ++ [c], rr, by rw [← hw]; simp [ftTok]⟩
      · cases h
    · cases h

theorem trailFeatMatch_token {cs : List Char} (h : trailFeatMatch cs = true) :
    featTok <:+: cs ∨ ftTok <:+: cs := by
  unfold trailFeatMatch at h
  have hd : cs.dropWhile isJsWhitespace <:+ cs := List.dropWhile_suffix _
  split at h
  · rename_i rr heq2
    obtain ⟨w, hw⟩ := hd
    rw [heq2] at hw
    exact Or.inl ⟨w, rr, by rw [← hw]; simp [featTok]⟩
  · rename_i rr heq2
    obtain ⟨w, hw⟩ := hd
    rw [heq2] at hw
    exact Or.inr ⟨w, rr, by rw [← hw]; simp [ftTok]⟩
  · cases h

theorem removeParenFeat_id {l : List Char} (h : NoFeatTok l) :
    removeParenFeat l = l := by
  induction l with
  | nil => rfl
  | cons c cs ih =>
    rcases hp : tryParenFeat (c :: cs) with _ | rest
    · rw [removeParenFeat_eq_none hp, ih (noFeatTok_of_tail h)]
    · rcases tryParenFeat_token hp with ht | ht
      · exact absurd ht h.1
      · exact absurd ht h.2

theorem stripTrailingFeat_id {l : List Char} (h : NoFeatTok l) :
    stripTrailingFeat l = l := by
  induction l with
  | nil => rfl
  | cons c cs ih =>
    unfold stripTrailingFeat
    rcases hm : trailFeatMatch (c :: cs) with _ | _
    · rw [if_neg (by simp), ih (noFeatTok_of_tail h)]
    · rcases trailFeatMatch_token hm with ht | ht
      · exact absurd ht h.1
      · exact absurd ht h.2

/-! ## Shape of the normalized output -/

theorem map_id_of_mem {f : Char → Char} :
    ∀ {l : List Char}, (∀ c ∈ l, f c = c) → l.map f = l := by
  intro l
  induction l with
  | nil => intro _; rfl
  | cons c cs ih =>
    intro h
    rw [List.map_cons, h c (List.mem_cons_self c cs),
      ih (fun d hd => h d (List.mem_cons_of_mem _ hd))]

theorem mem_collapseWs {c : Char} {l : List Char} (h : c ∈ collapseWs l) :
    (c ∈ l ∧ isJsWhitespace c = false) ∨ c = ' ' :=
  mem_collapseWsAux l false h

theorem mem_normalizeL {c : Char} {cs : List Char} (h : c ∈ normalizeL cs) :
    (∃ d ∈ cs, c = Char.toLower d) ∨ c = '\'' ∨ c = ' ' := by
  unfold normalizeL at h
  have h1 := mem_jsTrim h
  rcases mem_collapseWs h1 with ⟨h2, _⟩ | h2
  · rcases mem_fixApostrophes h2 with h3 | h3
    · have h4 := mem_stripTrailingFeat h3
      have h5 := mem_removeParenFeat h4
      have h6 := mem_jsTrim h5
      unfold jsToLower at h6
      obtain ⟨d, hd, he⟩ := List.mem_map.1 h6
      exact Or.inl ⟨d, hd, he.symm⟩
    · exact Or.inr (Or.inl h3)
  · exact Or.inr (Or.inr h2)

/-- Every character of a normalized string is fixed by lower-casing. -/
theorem normalizeL_lower_fixed {cs : List Char} :
    ∀ c ∈ normalizeL cs, Char.toLower c = c := by
  intro c h
  rcases mem_normalizeL h with ⟨d, _, he⟩ | h | h
  · rw [he]
    exact toLower_idem d
  · rw [h]
    decide
  · rw [h]
    decide

theorem jsToLower_normalizeL (cs : List Char) :
    jsToLower (normalizeL cs) = normalizeL cs :=
  map_id_of_mem normalizeL_lower_fixed

theorem normalizeL_no_backtick {cs : List Char} :
    ∀ c ∈ normalizeL cs, c ≠ backtickChar := by
  intro c h
  unfold normalizeL at h
  have h1 := mem_jsTrim h
  rcases mem_collapseWs h1 with ⟨h2, _⟩ | h2
  · exact fixApostrophes_no_backtick h2
  · rw [h2]
    decide

theorem normalizeL_ws_space {cs : List Char} :
    ∀ c ∈ normalizeL cs, isJsWhitespace c = true → c = ' ' := by
  intro c h hw
  unfold normalizeL at h
  have h1 := mem_jsTrim h
  rcases mem_collapseWs h1 with ⟨_, h2⟩ | h2
  · rw [hw] at h2
    cases h2
  · exact h2

theorem normalizeL_chain (cs : List Char) :
    List.Chain' (fun a d => ¬(isJsWhitespace a = true ∧ isJsWhitespace d = true))
      (normalizeL cs) := by
  unfold normalizeL collapseWs
  exact List.Chain'.infix (collapseWsAux_chain _ false) (jsTrim_infix_self _)

theorem normalizeL_head {cs : List Char} {c : Char}
    (h : (normalizeL cs).head? = some c) : isJsWhitespace c = false := by
  unfold normalizeL at h
  exact jsTrim_head h

theorem normalizeL_getLast {cs : List Char} {c : Char}
    (h : (normalizeL cs).getLast? = some c) : isJsWhitespace c = false := by
  unfold normalizeL at h
  exact jsTrim_getLast h

theorem normalizeL_trim (cs : List Char) :
    jsTrim (normalizeL cs) = normalizeL cs := by
  unfold normalizeL
  rw [jsTrim_idem]

/-- Normalizing a string whose normalized form is free of featuring tokens
is a no-op the second time. -/
theorem normalizeL_idem_of_noFeatTok {cs : List Char}
    (h : NoFeatTok (normalizeL cs)) :
    normalizeL (normalizeL cs) = normalizeL cs := by
  show jsTrim (collapseWs (fixApostrophes (stripTrailingFeat (removeParenFeat
    (jsTrim (jsToLower (normalizeL cs))))))) = normalizeL cs
  rw [jsToLower_normalizeL, normalizeL_trim, removeParenFeat_id h,
    stripTrailingFeat_id h, fixApostrophes_id normalizeL_no_backtick,
    collapseWs_id _ normalizeL_ws_space (normalizeL_chain cs), normalizeL_trim]

/-! ## Claims C9 and C10 -/

example : normalize "((feat. a)feat.x)" = "(feat.x)" := by decide
example : normalize "(feat.x)" = "" := by decide

/-- C9, counterexample: `normalize` is not idempotent. On
`"((feat. a)feat.x)"` the first bracketed-featuring pass removes the inner
`(feat. a)` and resumes scanning after it, leaving `(feat.x)` (which the
trailing-featuring pass cannot touch because no whitespace follows the
token); a second application of `normalize` then removes `(feat.x)`
entirely, so the two results differ. -/
theorem claim_C9_counterexample :
    normalize (normalize "((feat. a)feat.x)") ≠ normalize "((feat. a)feat.x)" := by
  decide

/-- Unfolding helper relating the `String` wrapper to the list-level
pipeline. -/
theorem normalize_data (s : String) : (normalize s).data = normalizeL s.data := rfl

/-- C9, amended: `normalize` is idempotent on every string whose
*normalized form* contains no featuring token (no `feat` and no `ft`
substring); for such strings `normalize (normalize s) = normalize s`. In
general idempotence fails (see the counterexample) because a removed
bracketed clause can expose a new featuring clause that only the second
pass removes. -/
theorem claim_C9_amended (s : String) (h : NoFeatTok (normalize s).data) :
    normalize (normalize s) = normalize s := by
  rw [normalize_data] at h
  show String.mk (normalizeL (normalize s).data) = normalize s
  rw [normalize_data]
  exact congrArg String.mk (normalizeL_idem_of_noFeatTok h)

/-- Witness for C9 (amended) at the concrete string `"Hello  Wo'rld "`. -/
theorem claim_C9_witness :
    normalize (normalize "Hello  Wo'rld ") = normalize "Hello  Wo'rld " :=
  claim_C9_amended "Hello  Wo'rld " (by constructor <;> decide)

/-- C10: the output of `normalize` is in canonical whitespace-and-case
form — it is unchanged by lower-casing (no uppercase letters), its first
and last characters are not whitespace, every whitespace character in it
is a plain space, and no two consecutive characters are both whitespace
(so every internal whitespace run is a single space). -/
theorem claim_C10_normalized_form (s : String) :
    ((normalize s).data.map Char.toLower = (normalize s).data)
    ∧ (∀ c, (normalize s).data.head? = some c → isJsWhitespace c = false)
    ∧ (∀ c, (normalize s).data.getLast? = some c → isJsWhitespace c = false)
    ∧ (∀ c ∈ (normalize s).data, isJsWhitespace c = true → c = ' ')
    ∧ List.Chain' (fun a d => ¬(isJsWhitespace a = true ∧ isJsWhitespace d = true))
        (normalize s).data := by
  rw [normalize_data]
  exact ⟨map_id_of_mem (@normalizeL_lower_fixed s.data),
    fun _ h => normalizeL_head h,
    fun _ h => normalizeL_getLast h,
    fun _ h hw => @normalizeL_ws_space s.data _ h hw,
    normalizeL_chain _⟩

/-- Witness for C10 at the concrete string `"  A  b "`: instantiates the
lower-casing clause and discharges the head clause at its evaluated head
character. -/
theorem claim_C10_witness :
    ((normalize "  A  b ").data.map Char.toLower = (normalize "  A  b ").data)
    ∧ isJsWhitespace 'a' = false :=
  ⟨(claim_C10_normalized_form "  A  b ").1,
   (claim_C10_normalized_form "  A  b ").2.1 'a' (by decide)⟩

/-! ## Data model (src/lib/types.ts) -/

/-- A source track: `{title, artist}` scraped from the Apple Music page. -/
structure AppleTrack where
  title : String
  artist : String
deriving DecidableEq

/-- Per-track status, `TrackStatus` in src/lib/types.ts (`not_found` is
spelled `notFound`). -/
inductive TrackStatus
  | pending
  | searching
  | found
  | notFound
  | skipped
deriving DecidableEq

/-- A matched destination candidate, the `spotifyTrack` payload
`{id, name, artist, uri}`. -/
structure SpotifyTrack where
  id : String
  name : String
  artist : String
  uri : String
deriving DecidableEq

/-- Per-track outcome, `SyncTrackResult` in src/lib/types.ts; the optional
`spotifyTrack` field starts out absent. -/
structure SyncTrackResult where
  appleTrack : AppleTrack
  status : TrackStatus
  spotifyTrack : Option SpotifyTrack := none
deriving DecidableEq

/-- Run summary, `SyncSummary` in src/lib/types.ts. -/
structure SyncSummary where
  total : Nat
  added : Nat
  skipped : Nat
  notFound : Nat
  results : List SyncTrackResult
deriving DecidableEq

/-! ## Remote environment

The Spotify Web API is modelled as an environment of response functions;
each remote call either returns decoded data or fails (a thrown
`spotifyFetch` error). -/

/-- A track object in a search response, with the fields the code reads
(`id`, `name`, `artists[*].name`, `uri`). -/
structure RawTrack where
  id : String
  name : String
  artistNames : List String
  uri : String
deriving DecidableEq

/-- A row of a playlist-items page after the code's `item.item ?? item.track`
coalescing; `none` models a row with no track object. `id` is optional:
`none` models a missing id (e.g. a locally-added file). -/
structure PlaylistEntry where
  id : Option String
  name : String
  artistNames : List String
deriving DecidableEq

/-- The remote surface `syncPlaylist` touches: `searchResp query limit` is
the decoded `tracks.items` of `GET /search` (or a thrown error),
`pages` is the sequence of pages served by the paginated
`GET /playlists/id/items` loop (or a thrown error on some page), and
`addItems` is one batched `POST /playlists/id/items`. -/
structure SpotifyEnv where
  searchResp : String → Nat → Except String (List RawTrack)
  pages : Except String (List (List (Option PlaylistEntry)))
  addItems : List String → Except String Unit

/-! ## searchTrack (src/lib/spotify.ts lines 229-291) -/

/-- JS `a.includes(b)`: `b` occurs as a contiguous substring of `a`. -/
def jsIncludes (a b : String) : Bool := decide (b.data <:+: a.data)

/-- Candidate record built from a raw search item:
`{id: t.id, name: t.name, artist: t.artists?.[0]?.name || "", uri: t.uri}`. -/
def candOf (t : RawTrack) : SpotifyTrack :=
  { id := t.id, name := t.name, artist := t.artistNames.headD "", uri := t.uri }

/-- The match predicate of the tier-1 candidate loop: the normalized source
title is a substring of (or superstring of) the candidate's normalized
title, and likewise for the artist. -/
def goodMatch (normTitle normArtist : String) (t : RawTrack) : Bool :=
  let spTitle := normalize t.name
  let spArtist := normalize (t.artistNames.headD "")
  (jsIncludes normTitle spTitle || jsIncludes spTitle normTitle) &&
  (jsIncludes normArtist spArtist || jsIncludes spArtist normArtist)

/-- Body of `searchTrack` without its surrounding try/catch: a thrown
remote-call error propagates as `Except.error`. Tier 1 issues the
structured query `track:<title> artist:<artist>` with `limit=5`; when it
returns any items the first `goodMatch` candidate (in result order) is
returned, else the top item. Tier 2 (plain `<title> <artist>` query,
`limit=3`, top item) runs only when tier 1 returned zero items.
URL-encoding of the query is transport-level and not modelled. -/
def searchTrackE (env : SpotifyEnv) (title artist : String) :
    Except String (Option SpotifyTrack) :=
  match env.searchResp ("track:" ++ title ++ " artist:" ++ artist) 5 with
  | .error e => .error e
  | .ok (t0 :: rest) =>
    match (t0 :: rest).find? (goodMatch (normalize title) (normalize artist)) with
    | some t => .ok (some (candOf t))
    | none => .ok (some (candOf t0))
  | .ok [] =>
    match env.searchResp (title ++ " " ++ artist) 3 with
    | .error e => .error e
    | .ok (t0 :: _) => .ok (some (candOf t0))
    | .ok [] => .ok none

/-- `searchTrack` from src/lib/spotify.ts: the catch block turns any
remote-call failure into `null`. -/
def searchTrack (env : SpotifyEnv) (title artist : String) : Option SpotifyTrack :=
  match searchTrackE env title artist with
  | .ok v => v
  | .error _ => none

/-- Two-tier matcher transcribed from the specification text (§4.3), for
the refinement claim C3: tier 1 issues the structured field-scoped query
with a bound of 5 and returns the first candidate (in result order)
satisfying the bidirectional-substring predicate on normalized title and
artist, falling back to the top-ranked candidate when none satisfies it;
tier 2 (free-text query, bound 3, top-ranked candidate) is attempted only
when tier 1 returned zero candidates; the result is null when both tiers
yield no candidates or on an unrecoverable remote failure. -/
def searchTrackSpecced (env : SpotifyEnv) (title artist : String) :
    Option SpotifyTrack :=
  match env.searchResp ("track:" ++ title ++ " artist:" ++ artist) 5 with
  | .error _ => none
  | .ok (t0 :: rest) =>
    match (t0 :: rest).find? (goodMatch (normalize title) (normalize artist)) with
    | some t => some (candOf t)
    | none => some (candOf t0)
  | .ok [] =>
    match env.searchResp (title ++ " " ++ artist) 3 with
    | .error _ => none
    | .ok (t0 :: _) => some (candOf t0)
    | .ok [] => none

/-- C3: the track matcher implements the two-tier search exactly as the
specification describes it (tier 1: structured query, bound 5, first
predicate-satisfying candidate in result order, else top candidate; tier 2
only on zero tier-1 candidates: free-text query, bound 3, top candidate;
null when both tiers are empty or the remote call fails). -/
theorem claim_C3_two_tier_search (env : SpotifyEnv) (title artist : String) :
    searchTrack env title artist = searchTrackSpecced env title artist := by
  unfold searchTrack searchTrackE searchTrackSpecced
  rcases env.searchResp ("track:" ++ title ++ " artist:" ++ artist) 5 with e | tracks
  · rfl
  · rcases tracks with _ | ⟨t0, rest⟩
    · rcases env.searchResp (title ++ " " ++ artist) 3 with e | tracks2
      · rfl
      · rcases tracks2 with _ | ⟨s0, rest2⟩ <;> rfl
    · dsimp only
      rcases (t0 :: rest).find? (goodMatch (normalize title) (normalize artist)) with _ | t <;> rfl

/-! ## getExistingPlaylistTracks (src/lib/spotify.ts lines 295-323) -/

/-- The dedup index `{ids: Set<string>, normalized: Set<string>}`. JS sets
are modelled as lists consulted only through membership. -/
structure ExistingIndex where
  ids : List String
  normalized : List String
deriving DecidableEq

/-- The normalized key of a playlist entry:
`normalize(track.name || "") + "|||" + normalize(track.artists?.[0]?.name || "")`. -/
def entryKey (track : PlaylistEntry) : String :=
  normalize track.name ++ "|||" ++ normalize (track.artistNames.headD "")

/-- The body of the pagination loop for one row: `if (!track?.id) continue;`
skips a missing row, a missing id and (by JS falsiness) an empty-string id;
otherwise the id and the normalized key are both recorded. -/
def indexItem (acc : ExistingIndex) (item : Option PlaylistEntry) : ExistingIndex :=
  match item with
  | none => acc
  | some track =>
    if track.id.getD "" = "" then acc
    else { ids := acc.ids ++ [track.id.getD ""],
           normalized := acc.normalized ++ [entryKey track] }

/-- `getExistingPlaylistTracks`: the `while (url)` pagination loop over the
pages served for `GET /playlists/id/items`, folding every row of every
page into the dedup index. -/
def getExistingPlaylistTracks (pages : List (List (Option PlaylistEntry))) :
    ExistingIndex :=
  pages.foldl (fun acc page => page.foldl indexItem acc) ⟨[], []⟩

/-- The entries the builder keeps: rows that have a track object with a
non-empty id, in page order. -/
def keptEntries (pages : List (List (Option PlaylistEntry))) : List PlaylistEntry :=
  (pages.flatten.filterMap id).filter (fun track => !(track.id.getD "" = ""))

theorem foldl_indexItem_page :
    ∀ (page : List (Option PlaylistEntry)) (acc : ExistingIndex),
      page.foldl indexItem acc =
        { ids := acc.ids ++
            ((page.filterMap id).filter (fun t => !(t.id.getD "" = ""))).map
              (fun t => t.id.getD ""),
          normalized := acc.normalized ++
            ((page.filterMap id).filter (fun t => !(t.id.getD "" = ""))).map entryKey } := by
  intro page
  induction page with
  | nil => intro acc; simp
  | cons item rest ih =>
    intro acc
    rcases item with _ | track
    · rw [List.foldl_cons]
      simp only [indexItem]
      rw [ih acc]
      simp
    · rw [List.foldl_cons]
      simp only [indexItem]
      by_cases hid : track.id.getD "" = ""
      · rw [if_pos hid, ih acc]
        simp [hid]
      · rw [if_neg hid, ih _]
        simp [hid]

/-- C5, counterexample: an entry with no id contributes nothing at all to
the index — in particular its normalized key is *not* recorded, because
`if (!track?.id) continue;` skips the key computation as well. -/
theorem claim_C5_counterexample :
    ¬ (entryKey ⟨none, "song", ["artist"]⟩ ∈
        (getExistingPlaylistTracks [[some ⟨none, "song", ["artist"]⟩]]).normalized) := by
  decide

/-- C5, amended: the index builder records, for exactly those entries that
have a (non-empty) id, both the id and the normalized key
`normalize(title) + "|||" + normalize(artist)`; entries with no id are
skipped entirely and contribute neither an id nor a normalized key. -/
theorem claim_C5_amended (pages : List (List (Option PlaylistEntry))) :
    getExistingPlaylistTracks pages =
      { ids := (keptEntries pages).map (fun t => t.id.getD ""),
        normalized := (keptEntries pages).map entryKey } := by
  unfold getExistingPlaylistTracks keptEntries
  suffices h : ∀ (ps : List (List (Option PlaylistEntry))) (acc : ExistingIndex),
      ps.foldl (fun acc page => page.foldl indexItem acc) acc =
        { ids := acc.ids ++
            ((ps.flatten.filterMap id).filter (fun t => !(t.id.getD "" = ""))).map
              (fun t => t.id.getD ""),
          normalized := acc.normalized ++
            ((ps.flatten.filterMap id).filter (fun t => !(t.id.getD "" = ""))).map entryKey } by
    rw [h pages ⟨[], []⟩]
    simp
  intro ps
  induction ps with
  | nil => intro acc; simp
  | cons page rest ih =>
    intro acc
    rw [List.foldl_cons, foldl_indexItem_page, ih]
    simp

/-! ## syncPlaylist (src/lib/spotify.ts lines 327-408) -/

/-- Mutable state of `syncPlaylist`'s per-track loop: the results array,
the URI batch `toAdd`, the `skipped`/`notFound` counters, the dedup index
(mutated in place by the found branch) and the trace of `onProgress`
calls, each carrying the copied results array and the current index. The
`added` counter is not tracked by the loop: the code derives it from
`toAdd.length` after the commit phase. -/
structure LoopState where
  results : List SyncTrackResult
  toAdd : List String
  skipped : Nat
  notFound : Nat
  existing : ExistingIndex
  snapshots : List (List SyncTrackResult × Nat)
deriving DecidableEq

/-- Body of the `for` loop of `syncPlaylist` at index `i`: mark the track
`searching` (progress), invoke `searchTrack`, then classify it
`not_found`, `skipped` (id already present), `skipped` (normalized key
already present) or `found` (attach the candidate, enqueue its URI and
eagerly insert its id and key into the index), emitting a progress
snapshot after each transition. The fixed `sleep(100)` pacing delay has no
observable effect in the model. -/
def processTrack (env : SpotifyEnv) (tracks : List AppleTrack) (st : LoopState)
    (i : Nat) : LoopState :=
  let t := tracks.getD i ⟨"", ""⟩
  let r0 := st.results.getD i ⟨⟨"", ""⟩, .pending, none⟩
  let rs1 := st.results.set i { r0 with status := .searching }
  let st1 := { st with results := rs1, snapshots := st.snapshots ++ [(rs1, i)] }
  match searchTrack env t.title t.artist with
  | none =>
    let rs2 := rs1.set i { r0 with status := .notFound }
    { st1 with
      results := rs2,
      notFound := st1.notFound + 1,
      snapshots := st1.snapshots ++ [(rs2, i)] }
  | some m =>
    if st1.existing.ids.contains m.id then
      let rs2 := rs1.set i { r0 with status := .skipped, spotifyTrack := some m }
      { st1 with
        results := rs2,
        skipped := st1.skipped + 1,
        snapshots := st1.snapshots ++ [(rs2, i)] }
    else
      let normKey := normalize m.name ++ "|||" ++ normalize m.artist
      if st1.existing.normalized.contains normKey then
        let rs2 := rs1.set i { r0 with status := .skipped, spotifyTrack := some m }
        { st1 with
          results := rs2,
          skipped := st1.skipped + 1,
          snapshots := st1.snapshots ++ [(rs2, i)] }
      else
        let rs2 := rs1.set i { r0 with status := .found, spotifyTrack := some m }
        { st1 with
          results := rs2,
          toAdd := st1.toAdd ++ [m.uri],
          existing := { ids := st1.existing.ids ++ [m.id],
                        normalized := st1.existing.normalized ++ [normKey] },
          snapshots := st1.snapshots ++ [(rs2, i)] }

/-- The results array before the loop: every track `pending`, no
candidate attached. -/
def initResults (tracks : List AppleTrack) : List SyncTrackResult :=
  tracks.map (fun t => { appleTrack := t, status := .pending, spotifyTrack := none })

/-- The loop state before the first iteration. -/
def initState (tracks : List AppleTrack) (existing : ExistingIndex) : LoopState :=
  { results := initResults tracks, toAdd := [], skipped := 0, notFound := 0,
    existing := existing, snapshots := [] }

/-- Loop state after the first `k` iterations. -/
def stateAt (env : SpotifyEnv) (tracks : List AppleTrack) (existing : ExistingIndex)
    (k : Nat) : LoopState :=
  (List.range k).foldl (processTrack env tracks) (initState tracks existing)

/-- Loop state after the whole per-track loop. -/
def syncRun (env : SpotifyEnv) (tracks : List AppleTrack) (existing : ExistingIndex) :
    LoopState :=
  stateAt env tracks existing tracks.length

/-- The commit loop `for (let i = 0; i < toAdd.length; i += 100)`: POST
the URIs in slices of 100, sequentially; the first rejected call rejects
the whole run. Fuel (always at least the list length) makes the recursion
structural. -/
def commitBatchesAux (env : SpotifyEnv) : Nat → List String → Except String Unit
  | _, [] => .ok ()
  | 0, _ :: _ => .ok ()
  | fuel + 1, u :: rest =>
    match env.addItems ((u :: rest).take 100) with
    | .error e => .error e
    | .ok _ => commitBatchesAux env fuel ((u :: rest).drop 100)

/-- The batch-commit phase of `syncPlaylist`. -/
def commitBatches (env : SpotifyEnv) (uris : List String) : Except String Unit :=
  commitBatchesAux env uris.length uris

/-- `syncPlaylist` from src/lib/spotify.ts: build the dedup index once (a
failed page request rejects the whole run), classify every source track in
input order, commit the enqueued URIs in batches of 100 (a rejected POST
rejects the run), and return the summary with `added = toAdd.length`, the
accumulated counters and the full results array. -/
def syncPlaylist (env : SpotifyEnv) (tracks : List AppleTrack) :
    Except String SyncSummary :=
  match env.pages with
  | .error e => .error e
  | .ok pages =>
    let final := syncRun env tracks (getExistingPlaylistTracks pages)
    match commitBatches env final.toAdd with
    | .error e => .error e
    | .ok _ =>
      .ok { total := tracks.length, added := final.toAdd.length,
            skipped := final.skipped, notFound := final.notFound,
            results := final.results }

/-! ## Branch characterization of the loop body -/

/-- The record stored for index `i` while searching. -/
theorem processTrack_none {env : SpotifyEnv} {tracks : List AppleTrack}
    {st : LoopState} {i : Nat} {t : AppleTrack} {r0 : SyncTrackResult}
    (ht : tracks[i]? = some t) (hr : st.results[i]? = some r0)
    (hs : searchTrack env t.title t.artist = none) :
    processTrack env tracks st i =
      { results := st.results.set i { r0 with status := .notFound },
        toAdd := st.toAdd,
        skipped := st.skipped,
        notFound := st.notFound + 1,
        existing := st.existing,
        snapshots := st.snapshots ++ [(st.results.set i { r0 with status := .searching }, i)]
          ++ [(st.results.set i { r0 with status := .notFound }, i)] } := by
  simp only [processTrack, List.getD_eq_getElem?_getD, ht, hr, Option.getD_some, hs,
    List.set_set]

theorem processTrack_skip_id {env : SpotifyEnv} {tracks : List AppleTrack}
    {st : LoopState} {i : Nat} {t : AppleTrack} {r0 : SyncTrackResult}
    {m : SpotifyTrack}
    (ht : tracks[i]? = some t) (hr : st.results[i]? = some r0)
    (hs : searchTrack env t.title t.artist = some m)
    (h1 : st.existing.ids.contains m.id = true) :
    processTrack env tracks st i =
      { results := st.results.set i { r0 with status := .skipped, spotifyTrack := some m },
        toAdd := st.toAdd,
        skipped := st.skipped + 1,
        notFound := st.notFound,
        existing := st.existing,
        snapshots := st.snapshots ++ [(st.results.set i { r0 with status := .searching }, i)]
          ++ [(st.results.set i { r0 with status := .skipped, spotifyTrack := some m }, i)] } := by
  simp only [processTrack, List.getD_eq_getElem?_getD, ht, hr, Option.getD_some, hs,
    h1, if_true, List.set_set]

theorem processTrack_skip_key {env : SpotifyEnv} {tracks : List AppleTrack}
    {st : LoopState} {i : Nat} {t : AppleTrack} {r0 : SyncTrackResult}
    {m : SpotifyTrack}
    (ht : tracks[i]? = some t) (hr : st.results[i]? = some r0)
    (hs : searchTrack env t.title t.artist = some m)
    (h1 : st.existing.ids.contains m.id = false)
    (h2 : st.existing.normalized.contains
        (normalize m.name ++ "|||" ++ normalize m.artist) = true) :
    processTrack env tracks st i =
      { results := st.results.set i { r0 with status := .skipped, spotifyTrack := some m },
        toAdd := st.toAdd,
        skipped := st.skipped + 1,
        notFound := st.notFound,
        existing := st.existing,
        snapshots := st.snapshots ++ [(st.results.set i { r0 with status := .searching }, i)]
          ++ [(st.results.set i { r0 with status := .skipped, spotifyTrack := some m }, i)] } := by
  simp only [processTrack, List.getD_eq_getElem?_getD, ht, hr, Option.getD_some, hs,
    h1, h2, if_true, Bool.false_eq_true, if_false, List.set_set]

theorem processTrack_found {env : SpotifyEnv} {tracks : List AppleTrack}
    {st : LoopState} {i : Nat} {t : AppleTrack} {r0 : SyncTrackResult}
    {m : SpotifyTrack}
    (ht : tracks[i]? = some t) (hr : st.results[i]? = some r0)
    (hs : searchTrack env t.title t.artist = some m)
    (h1 : st.existing.ids.contains m.id = false)
    (h2 : st.existing.normalized.contains
        (normalize m.name ++ "|||" ++ normalize m.artist) = false) :
    processTrack env tracks st i =
      { results := st.results.set i { r0 with status := .found, spotifyTrack := some m },
        toAdd := st.toAdd ++ [m.uri],
        skipped := st.skipped,
        notFound := st.notFound,
        existing := { ids := st.existing.ids ++ [m.id],
                      normalized := st.existing.normalized
                        ++ [normalize m.name ++ "|||" ++ normalize m.artist] },
        snapshots := st.snapshots ++ [(st.results.set i { r0 with status := .searching }, i)]
          ++ [(st.results.set i { r0 with status := .found, spotifyTrack := some m }, i)] } := by
  simp only [processTrack, List.getD_eq_getElem?_getD, ht, hr, Option.getD_some, hs,
    h1, h2, Bool.false_eq_true, if_false, List.set_set]

/-! ## Status order and monotone progress -/

/-- The forward order of the per-track state machine:
`pending → searching → {found, not_found, skipped}`. -/
def statusLE (a b : TrackStatus) : Prop :=
  a = b ∨ a = TrackStatus.pending ∨ (a = TrackStatus.searching ∧ b ≠ TrackStatus.pending)

theorem statusLE_refl (a : TrackStatus) : statusLE a a := Or.inl rfl

theorem statusLE_trans {a b c : TrackStatus}
    (h₁ : statusLE a b) (h₂ : statusLE b c) : statusLE a c := by
  rcases h₁ with rfl | h₁ | ⟨rfl, hb⟩
  · exact h₂
  · exact Or.inr (Or.inl h₁)
  · rcases h₂ with rfl | h₂ | ⟨h₂, hc⟩
    · exact Or.inr (Or.inr ⟨rfl, hb⟩)
    · exact absurd h₂ hb
    · exact Or.inr (Or.inr ⟨rfl, hc⟩)

/-- Pointwise forward order on two results arrays. -/
def resultsLE (rs₁ rs₂ : List SyncTrackResult) : Prop :=
  List.Forall₂ (fun a b => statusLE a.status b.status) rs₁ rs₂

theorem resultsLE_refl (rs : List SyncTrackResult) : resultsLE rs rs := by
  induction rs with
  | nil => exact List.Forall₂.nil
  | cons r rest ih => exact List.Forall₂.cons (statusLE_refl r.status) ih

theorem resultsLE_trans {rs₁ rs₂ rs₃ : List SyncTrackResult}
    (h₁ : resultsLE rs₁ rs₂) (h₂ : resultsLE rs₂ rs₃) : resultsLE rs₁ rs₃ := by
  rw [resultsLE, List.forall₂_iff_get] at h₁ h₂ ⊢
  obtain ⟨hl₁, hp₁⟩ := h₁
  obtain ⟨hl₂, hp₂⟩ := h₂
  refine ⟨hl₁.trans hl₂, fun i hi₁ hi₃ => ?_⟩
  exact statusLE_trans (hp₁ i hi₁ (by omega)) (hp₂ i (by omega) hi₃)

theorem resultsLE_set {rs : List SyncTrackResult} {i : Nat} {r x : SyncTrackResult}
    (hr : rs[i]? = some r) (hle : statusLE r.status x.status) :
    resultsLE rs (rs.set i x) := by
  rw [resultsLE, List.forall₂_iff_get]
  refine ⟨by simp, fun j hj₁ hj₂ => ?_⟩
  by_cases hij : i = j
  · subst hij
    have : rs[i] = r := by
      have := List.getElem?_eq_getElem hj₁
      rw [this] at hr
      exact Option.some_inj.1 hr
    rw [List.get_eq_getElem, List.get_eq_getElem, List.getElem_set_self, this]
    exact hle
  · rw [List.get_eq_getElem, List.get_eq_getElem, List.getElem_set_ne hij]
    exact statusLE_refl _

theorem chain'_concat_of {R : List SyncTrackResult → List SyncTrackResult → Prop}
    {xs : List (List SyncTrackResult)} {a b : List SyncTrackResult}
    (h : List.Chain' R (xs ++ [a])) (hab : R a b) :
    List.Chain' R (xs ++ [a] ++ [b]) := by
  rw [List.chain'_append]
  refine ⟨h, List.chain'_singleton b, fun x hx y hy => ?_⟩
  rw [List.getLast?_concat] at hx
  simp only [List.head?_cons, Option.mem_def, Option.some_inj] at hx hy
  rw [← hx, ← hy]
  exact hab

/-! ## Counting results by status -/

theorem countP_set {α : Type} {p : α → Bool} :
    ∀ (l : List α) (i : Nat) (x r : α), l[i]? = some r →
      (l.set i x).countP p + (if p r then 1 else 0) =
        l.countP p + (if p x then 1 else 0) := by
  intro l
  induction l with
  | nil => intro i x r hr; simp at hr
  | cons c cs ih =>
    intro i x r hr
    cases i with
    | zero =>
      simp only [List.getElem?_cons_zero, Option.some_inj] at hr
      subst hr
      simp only [List.set_cons_zero, List.countP_cons]
      omega
    | succ j =>
      simp only [List.getElem?_cons_succ] at hr
      simp only [List.set_cons_succ, List.countP_cons]
      have := ih j x r hr
      omega

/-! ## The candidates enqueued by found tracks -/

/-- The matcher result for index `j` (the matcher is a function of the
environment and the track's title/artist, so two runs over the same index
agree). -/
def searchAt (env : SpotifyEnv) (tracks : List AppleTrack) (j : Nat) :
    Option SpotifyTrack :=
  match tracks[j]? with
  | some t => searchTrack env t.title t.artist
  | none => none

/-- The candidates of the tracks classified `found` among the first `k`
indices of a results array, in input order. -/
def foundCands (env : SpotifyEnv) (tracks : List AppleTrack) (k : Nat)
    (rs : List SyncTrackResult) : List SpotifyTrack :=
  (List.range k).filterMap (fun j =>
    match rs[j]? with
    | some r => if r.status = TrackStatus.found then searchAt env tracks j else none
    | none => none)

theorem foundCands_congr {env : SpotifyEnv} {tracks : List AppleTrack} {k : Nat}
    {rs rs' : List SyncTrackResult} (h : ∀ j, j < k → rs'[j]? = rs[j]?) :
    foundCands env tracks k rs' = foundCands env tracks k rs := by
  unfold foundCands
  exact List.filterMap_congr (fun j hj => by rw [h j (List.mem_range.1 hj)])

theorem foundCands_succ {env : SpotifyEnv} {tracks : List AppleTrack} {k : Nat}
    {rs : List SyncTrackResult} :
    foundCands env tracks (k + 1) rs =
      foundCands env tracks k rs ++
        (List.filterMap (fun j =>
          match rs[j]? with
          | some r => if r.status = TrackStatus.found then searchAt env tracks j else none
          | none => none) [k]) := by
  unfold foundCands
  rw [List.range_succ, List.filterMap_append]

/-! ## Pointwise effects of one loop iteration -/

theorem processTrack_results_ne {env : SpotifyEnv} {tracks : List AppleTrack}
    {st : LoopState} {i : Nat} {t : AppleTrack} {r0 : SyncTrackResult}
    (ht : tracks[i]? = some t) (hr : st.results[i]? = some r0)
    {j : Nat} (hne : i ≠ j) :
    (processTrack env tracks st i).results[j]? = st.results[j]? := by
  rcases hs : searchTrack env t.title t.artist with _ | m
  · rw [processTrack_none ht hr hs]
    exact List.getElem?_set_ne hne
  · rcases h1 : st.existing.ids.contains m.id with _ | _
    · rcases h2 : st.existing.normalized.contains
          (normalize m.name ++ "|||" ++ normalize m.artist) with _ | _
      · rw [processTrack_found ht hr hs h1 h2]
        exact List.getElem?_set_ne hne
      · rw [processTrack_skip_key ht hr hs h1 h2]
        exact List.getElem?_set_ne hne
    · rw [processTrack_skip_id ht hr hs h1]
      exact List.getElem?_set_ne hne

theorem processTrack_ids_mono {env : SpotifyEnv} {tracks : List AppleTrack}
    {st : LoopState} {i : Nat} {t : AppleTrack} {r0 : SyncTrackResult}
    (ht : tracks[i]? = some t) (hr : st.results[i]? = some r0)
    {x : String} (hx : x ∈ st.existing.ids) :
    x ∈ (processTrack env tracks st i).existing.ids := by
  rcases hs : searchTrack env t.title t.artist with _ | m
  · rw [processTrack_none ht hr hs]
    exact hx
  · rcases h1 : st.existing.ids.contains m.id with _ | _
    · rcases h2 : st.existing.normalized.contains
          (normalize m.name ++ "|||" ++ normalize m.artist) with _ | _
      · rw [processTrack_found ht hr hs h1 h2]
        exact List.mem_append_left _ hx
      · rw [processTrack_skip_key ht hr hs h1 h2]
        exact hx
    · rw [processTrack_skip_id ht hr hs h1]
      exact hx

theorem processTrack_results_len {env : SpotifyEnv} {tracks : List AppleTrack}
    {st : LoopState} {i : Nat} {t : AppleTrack} {r0 : SyncTrackResult}
    (ht : tracks[i]? = some t) (hr : st.results[i]? = some r0) :
    (processTrack env tracks st i).results.length = st.results.length := by
  rcases hs : searchTrack env t.title t.artist with _ | m
  · rw [processTrack_none ht hr hs]
    simp
  · rcases h1 : st.existing.ids.contains m.id with _ | _
    · rcases h2 : st.existing.normalized.contains
          (normalize m.name ++ "|||" ++ normalize m.artist) with _ | _
      · rw [processTrack_found ht hr hs h1 h2]
        simp
      · rw [processTrack_skip_key ht hr hs h1 h2]
        simp
    · rw [processTrack_skip_id ht hr hs h1]
      simp

/-! ## The loop as iterated steps -/

theorem stateAt_zero (env : SpotifyEnv) (tracks : List AppleTrack)
    (ex : ExistingIndex) : stateAt env tracks ex 0 = initState tracks ex := rfl

theorem stateAt_succ (env : SpotifyEnv) (tracks : List AppleTrack)
    (ex : ExistingIndex) (k : Nat) :
    stateAt env tracks ex (k + 1) =
      processTrack env tracks (stateAt env tracks ex k) k := by
  unfold stateAt
  rw [List.range_succ, List.foldl_append, List.foldl_cons, List.foldl_nil]

/-! ## The loop invariant -/

theorem initResults_getElem? (tracks : List AppleTrack) (j : Nat) :
    (initResults tracks)[j]? =
      tracks[j]?.map (fun t =>
        { appleTrack := t, status := TrackStatus.pending, spotifyTrack := none }) := by
  unfold initResults
  rw [List.getElem?_map]

/-- Everything `syncPlaylist`'s loop maintains after `k` iterations:
counters mirror the statuses, processed tracks are terminally classified
and carry a candidate iff found/skipped, unprocessed tracks are untouched,
progress snapshots only ever move statuses forward, the dedup index only
grows, and `toAdd` is exactly the URI list of the found candidates, whose
ids are pairwise distinct and recorded in the index. -/
structure LoopInv (env : SpotifyEnv) (tracks : List AppleTrack)
    (ex : ExistingIndex) (k : Nat) (st : LoopState) : Prop where
  rlen : st.results.length = tracks.length
  tailInit : ∀ j, k ≤ j → st.results[j]? = (initResults tracks)[j]?
  headTerm : ∀ (j : Nat) (r : SyncTrackResult), j < k → st.results[j]? = some r →
    r.status = TrackStatus.found ∨ r.status = TrackStatus.skipped ∨
      r.status = TrackStatus.notFound
  matched : ∀ r ∈ st.results,
    r.spotifyTrack ≠ none ↔ (r.status = TrackStatus.found ∨ r.status = TrackStatus.skipped)
  countF : st.toAdd.length = st.results.countP (fun r => r.status == TrackStatus.found)
  countS : st.skipped = st.results.countP (fun r => r.status == TrackStatus.skipped)
  countN : st.notFound = st.results.countP (fun r => r.status == TrackStatus.notFound)
  apple : ∀ (j : Nat) (r : SyncTrackResult), st.results[j]? = some r →
    tracks[j]? = some r.appleTrack
  chain : List.Chain' resultsLE (st.snapshots.map Prod.fst ++ [st.results])
  idsSup : ∀ x ∈ ex.ids, x ∈ st.existing.ids
  toAddChar : st.toAdd = (foundCands env tracks k st.results).map SpotifyTrack.uri
  foundNodup : ((foundCands env tracks k st.results).map SpotifyTrack.id).Nodup
  foundInIds : ∀ m ∈ foundCands env tracks k st.results, m.id ∈ st.existing.ids

theorem foundCands_zero (env : SpotifyEnv) (tracks : List AppleTrack)
    (rs : List SyncTrackResult) : foundCands env tracks 0 rs = [] := rfl

theorem loopInv_zero (env : SpotifyEnv) (tracks : List AppleTrack)
    (ex : ExistingIndex) : LoopInv env tracks ex 0 (initState tracks ex) := by
  refine ⟨?_, ?_, ?_, ?_, ?_, ?_, ?_, ?_, ?_, ?_, ?_, ?_, ?_⟩
  · simp [initState, initResults]
  · intro j _
    rfl
  · intro j r hj _
    omega
  · intro r hr
    simp only [initState, initResults] at hr
    obtain ⟨t, _, he⟩ := List.mem_map.1 hr
    rw [← he]
    simp
  · simp only [initState]
    rw [List.countP_eq_zero.2 ?_]
    · rfl
    · intro r hr
      unfold initResults at hr
      obtain ⟨t, _, he⟩ := List.mem_map.1 hr
      rw [← he]
      simp
  · simp only [initState]
    rw [List.countP_eq_zero.2 ?_]
    intro r hr
    unfold initResults at hr
    obtain ⟨t, _, he⟩ := List.mem_map.1 hr
    rw [← he]
    simp
  · simp only [initState]
    rw [List.countP_eq_zero.2 ?_]
    intro r hr
    unfold initResults at hr
    obtain ⟨t, _, he⟩ := List.mem_map.1 hr
    rw [← he]
    simp
  · intro j r hr
    simp only [initState] at hr
    rw [initResults_getElem? tracks j] at hr
    rcases hj : tracks[j]? with _ | t
    · rw [hj] at hr
      cases hr
    · rw [hj] at hr
      have hr' :
          r = { appleTrack := t, status := TrackStatus.pending, spotifyTrack := none } :=
        (Option.some_inj.1 hr).symm
      rw [hr']
  · exact List.chain'_singleton _
  · intro x hx
    exact hx
  · rfl
  · exact List.nodup_nil
  · intro m hm
    cases hm

theorem chain'_replace_last {xs : List (List SyncTrackResult)}
    {a b : List SyncTrackResult}
    (h : List.Chain' resultsLE (xs ++ [a])) (hab : resultsLE a b) :
    List.Chain' resultsLE (xs ++ [b]) := by
  rw [List.chain'_append] at h ⊢
  obtain ⟨h1, _, h3⟩ := h
  refine ⟨h1, List.chain'_singleton _, fun x hx y hy => ?_⟩
  simp only [List.head?_cons, Option.mem_def, Option.some_inj] at hy
  rw [← hy]
  exact resultsLE_trans (h3 x hx a rfl) hab

/-- The six fields of the invariant that every branch of the loop body
updates in the same way: the results array is `set` at the current index
to a terminally-classified record (with candidate attached iff
found/skipped) and two snapshots are appended. -/
theorem loopInv_fields_common {env : SpotifyEnv} {tracks : List AppleTrack}
    {ex : ExistingIndex} {k : Nat} {st : LoopState}
    (h : LoopInv env tracks ex k st) (hk : k < tracks.length)
    {t : AppleTrack}
    (hr : st.results[k]? = some (⟨t, TrackStatus.pending, none⟩ : SyncTrackResult))
    (newR : SyncTrackResult)
    (hterm : newR.status = TrackStatus.found ∨ newR.status = TrackStatus.skipped ∨
      newR.status = TrackStatus.notFound)
    (hmt : newR.spotifyTrack ≠ none ↔
      (newR.status = TrackStatus.found ∨ newR.status = TrackStatus.skipped))
    (happ : tracks[k]? = some newR.appleTrack) :
    (st.results.set k newR).length = tracks.length ∧
    (∀ j, k + 1 ≤ j → (st.results.set k newR)[j]? = (initResults tracks)[j]?) ∧
    (∀ (j : Nat) (r : SyncTrackResult), j < k + 1 →
      (st.results.set k newR)[j]? = some r →
      r.status = TrackStatus.found ∨ r.status = TrackStatus.skipped ∨
        r.status = TrackStatus.notFound) ∧
    (∀ r ∈ st.results.set k newR,
      r.spotifyTrack ≠ none ↔
        (r.status = TrackStatus.found ∨ r.status = TrackStatus.skipped)) ∧
    (∀ (j : Nat) (r : SyncTrackResult), (st.results.set k newR)[j]? = some r →
      tracks[j]? = some r.appleTrack) ∧
    List.Chain' resultsLE
      ((st.snapshots
          ++ [(st.results.set k (⟨t, TrackStatus.searching, none⟩ : SyncTrackResult), k)]
          ++ [(st.results.set k newR, k)]).map Prod.fst
        ++ [st.results.set k newR]) := by
  have hklen : k < st.results.length := by
    rw [h.rlen]
    exact hk
  refine ⟨?_, ?_, ?_, ?_, ?_, ?_⟩
  · rw [List.length_set]
    exact h.rlen
  · intro j hj
    rw [List.getElem?_set_ne (by omega)]
    exact h.tailInit j (by omega)
  · intro j r hj hr'
    by_cases hjk : j = k
    · subst hjk
      rw [List.getElem?_set_self hklen] at hr'
      rw [← Option.some_inj.1 hr']
      exact hterm
    · rw [List.getElem?_set_ne (fun hkj => hjk hkj.symm)] at hr'
      exact h.headTerm j r (by omega) hr'
  · intro r hrm
    rcases List.mem_or_eq_of_mem_set hrm with hrm | rfl
    · exact h.matched r hrm
    · exact hmt
  · intro j r hr'
    by_cases hjk : j = k
    · subst hjk
      rw [List.getElem?_set_self hklen] at hr'
      rw [← Option.some_inj.1 hr']
      exact happ
    · rw [List.getElem?_set_ne (fun hkj => hjk hkj.symm)] at hr'
      exact h.apple j r hr'
  · have hle1 : resultsLE st.results
        (st.results.set k (⟨t, TrackStatus.searching, none⟩ : SyncTrackResult)) :=
      resultsLE_set hr (Or.inr (Or.inl rfl))
    have hle2 : resultsLE
        (st.results.set k (⟨t, TrackStatus.searching, none⟩ : SyncTrackResult))
        (st.results.set k newR) := by
      rw [← List.set_set (⟨t, TrackStatus.searching, none⟩ : SyncTrackResult) newR]
      refine resultsLE_set (List.getElem?_set_self (by simpa using hklen)) ?_
      refine Or.inr (Or.inr ⟨rfl, ?_⟩)
      rcases hterm with h' | h' | h' <;> rw [h'] <;> intro hc <;> cases hc
    have step1 := chain'_replace_last h.chain hle1
    have step2 := chain'_concat_of step1 hle2
    have step3 := chain'_concat_of step2 (resultsLE_refl _)
    simpa using step3

/-- One iteration of the loop preserves the invariant. -/
theorem loopInv_step {env : SpotifyEnv} {tracks : List AppleTrack}
    {ex : ExistingIndex} {k : Nat} {st : LoopState}
    (h : LoopInv env tracks ex k st) (hk : k < tracks.length) :
    LoopInv env tracks ex (k + 1) (processTrack env tracks st k) := by
  have ht : tracks[k]? = some tracks[k] := List.getElem?_eq_getElem hk
  have hr : st.results[k]? =
      some (⟨tracks[k], TrackStatus.pending, none⟩ : SyncTrackResult) := by
    rw [h.tailInit k (le_refl k), initResults_getElem? tracks k, ht]
    rfl
  have hklen : k < st.results.length := by
    rw [h.rlen]
    exact hk
  have hsAt : searchAt env tracks k = searchTrack env tracks[k].title tracks[k].artist := by
    unfold searchAt
    rw [ht]
  have hstepj : ∀ (newR : SyncTrackResult) (j : Nat), j < k →
      (st.results.set k newR)[j]? = st.results[j]? :=
    fun newR j hj => List.getElem?_set_ne (by omega)
  have hfkgen : ∀ newR : SyncTrackResult,
      (st.results.set k newR)[k]? = some newR :=
    fun newR => List.getElem?_set_self hklen
  rcases hs : searchTrack env tracks[k].title tracks[k].artist with _ | m
  -- branch: matcher returned null → not_found
  · have hcF := countP_set (p := fun r => r.status == TrackStatus.found)
      st.results k ⟨tracks[k], TrackStatus.notFound, none⟩ _ hr
    have hcS := countP_set (p := fun r => r.status == TrackStatus.skipped)
      st.results k ⟨tracks[k], TrackStatus.notFound, none⟩ _ hr
    have hcN := countP_set (p := fun r => r.status == TrackStatus.notFound)
      st.results k ⟨tracks[k], TrackStatus.notFound, none⟩ _ hr
    simp only [show ((⟨tracks[k], TrackStatus.pending, none⟩ :
        SyncTrackResult).status == TrackStatus.found) = false from rfl,
      show ((⟨tracks[k], TrackStatus.pending, none⟩ :
        SyncTrackResult).status == TrackStatus.skipped) = false from rfl,
      show ((⟨tracks[k], TrackStatus.pending, none⟩ :
        SyncTrackResult).status == TrackStatus.notFound) = false from rfl,
      show ((⟨tracks[k], TrackStatus.notFound, none⟩ :
        SyncTrackResult).status == TrackStatus.found) = false from rfl,
      show ((⟨tracks[k], TrackStatus.notFound, none⟩ :
        SyncTrackResult).status == TrackStatus.skipped) = false from rfl,
      show ((⟨tracks[k], TrackStatus.notFound, none⟩ :
        SyncTrackResult).status == TrackStatus.notFound) = true from rfl,
      if_true, if_false, Bool.false_eq_true] at hcF hcS hcN
    have hfc : foundCands env tracks (k + 1)
        (st.results.set k ⟨tracks[k], TrackStatus.notFound, none⟩) =
        foundCands env tracks k st.results := by
      rw [foundCands_succ,
        foundCands_congr (hstepj ⟨tracks[k], TrackStatus.notFound, none⟩)]
      simp [hfkgen ⟨tracks[k], TrackStatus.notFound, none⟩]
    rw [processTrack_none ht hr hs]
    obtain ⟨c1, c2, c3, c4, c5, c6⟩ :=
      loopInv_fields_common h hk hr ⟨tracks[k], TrackStatus.notFound, none⟩
        (by simp) (by simp) (by rw [ht])
    refine ⟨c1, c2, c3, c4, ?_, ?_, ?_, c5, c6, ?_, ?_, ?_, ?_⟩
    · dsimp only
      rw [h.countF]
      omega
    · dsimp only
      rw [h.countS]
      omega
    · dsimp only
      rw [h.countN]
      omega
    · exact h.idsSup
    · dsimp only
      rw [hfc]
      exact h.toAddChar
    · dsimp only
      rw [hfc]
      exact h.foundNodup
    · dsimp only
      rw [hfc]
      exact h.foundInIds
  -- branches: matcher returned a candidate
  · rcases h1 : st.existing.ids.contains m.id with _ | _
    · rcases h2 : st.existing.normalized.contains
          (normalize m.name ++ "|||" ++ normalize m.artist) with _ | _
      -- found branch
      · have hcF := countP_set (p := fun r => r.status == TrackStatus.found)
          st.results k ⟨tracks[k], TrackStatus.found, some m⟩ _ hr
        have hcS := countP_set (p := fun r => r.status == TrackStatus.skipped)
          st.results k ⟨tracks[k], TrackStatus.found, some m⟩ _ hr
        have hcN := countP_set (p := fun r => r.status == TrackStatus.notFound)
          st.results k ⟨tracks[k], TrackStatus.found, some m⟩ _ hr
        simp only [show ((⟨tracks[k], TrackStatus.pending, none⟩ :
            SyncTrackResult).status == TrackStatus.found) = false from rfl,
          show ((⟨tracks[k], TrackStatus.pending, none⟩ :
            SyncTrackResult).status == TrackStatus.skipped) = false from rfl,
          show ((⟨tracks[k], TrackStatus.pending, none⟩ :
            SyncTrackResult).status == TrackStatus.notFound) = false from rfl,
          show ((⟨tracks[k], TrackStatus.found, some m⟩ :
            SyncTrackResult).status == TrackStatus.found) = true from rfl,
          show ((⟨tracks[k], TrackStatus.found, some m⟩ :
            SyncTrackResult).status == TrackStatus.skipped) = false from rfl,
          show ((⟨tracks[k], TrackStatus.found, some m⟩ :
            SyncTrackResult).status == TrackStatus.notFound) = false from rfl,
          if_true, if_false, Bool.false_eq_true] at hcF hcS hcN
        have hfc : foundCands env tracks (k + 1)
            (st.results.set k ⟨tracks[k], TrackStatus.found, some m⟩) =
            foundCands env tracks k st.results ++ [m] := by
          rw [foundCands_succ,
            foundCands_congr (hstepj ⟨tracks[k], TrackStatus.found, some m⟩)]
          simp only [hfkgen ⟨tracks[k], TrackStatus.found, some m⟩,
            List.filterMap_cons, List.filterMap_nil]
          rw [hsAt, hs]
          simp
        have hmidNotIn : m.id ∉ st.existing.ids := by
          intro hmem
          have h1' : st.existing.ids.contains m.id = true := List.elem_iff.2 hmem
          rw [h1] at h1'
          cases h1'
        rw [processTrack_found ht hr hs h1 h2]
        obtain ⟨c1, c2, c3, c4, c5, c6⟩ :=
          loopInv_fields_common h hk hr ⟨tracks[k], TrackStatus.found, some m⟩
            (by simp) (by simp) (by rw [ht])
        refine ⟨c1, c2, c3, c4, ?_, ?_, ?_, c5, c6, ?_, ?_, ?_, ?_⟩
        · dsimp only
          rw [List.length_append, h.countF]
          simp only [List.length_singleton]
          omega
        · dsimp only
          rw [h.countS]
          omega
        · dsimp only
          rw [h.countN]
          omega
        · intro x hx
          exact List.mem_append_left _ (h.idsSup x hx)
        · dsimp only
          rw [hfc, List.map_append, h.toAddChar]
          simp
        · dsimp only
          rw [hfc, List.map_append]
          rw [List.nodup_append]
          refine ⟨h.foundNodup, List.nodup_singleton _, ?_⟩
          intro a ha hb
          simp only [List.map_cons, List.map_nil, List.mem_singleton] at hb
          obtain ⟨m', hm', hm'id⟩ := List.mem_map.1 ha
          exact hmidNotIn (hb ▸ hm'id ▸ h.foundInIds m' hm')
        · dsimp only
          rw [hfc]
          intro m' hm'
          rcases List.mem_append.1 hm' with hm' | hm'
          · exact List.mem_append_left _ (h.foundInIds m' hm')
          · rw [List.mem_singleton.1 hm']
            exact List.mem_append_right _ (List.mem_singleton.2 rfl)
      -- skipped-by-normalized-key branch
      · have hcF := countP_set (p := fun r => r.status == TrackStatus.found)
          st.results k ⟨tracks[k], TrackStatus.skipped, some m⟩ _ hr
        have hcS := countP_set (p := fun r => r.status == TrackStatus.skipped)
          st.results k ⟨tracks[k], TrackStatus.skipped, some m⟩ _ hr
        have hcN := countP_set (p := fun r => r.status == TrackStatus.notFound)
          st.results k ⟨tracks[k], TrackStatus.skipped, some m⟩ _ hr
        simp only [show ((⟨tracks[k], TrackStatus.pending, none⟩ :
            SyncTrackResult).status == TrackStatus.found) = false from rfl,
          show ((⟨tracks[k], TrackStatus.pending, none⟩ :
            SyncTrackResult).status == TrackStatus.skipped) = false from rfl,
          show ((⟨tracks[k], TrackStatus.pending, none⟩ :
            SyncTrackResult).status == TrackStatus.notFound) = false from rfl,
          show ((⟨tracks[k], TrackStatus.skipped, some m⟩ :
            SyncTrackResult).status == TrackStatus.found) = false from rfl,
          show ((⟨tracks[k], TrackStatus.skipped, some m⟩ :
            SyncTrackResult).status == TrackStatus.skipped) = true from rfl,
          show ((⟨tracks[k], TrackStatus.skipped, some m⟩ :
            SyncTrackResult).status == TrackStatus.notFound) = false from rfl,
          if_true, if_false, Bool.false_eq_true] at hcF hcS hcN
        have hfc : foundCands env tracks (k + 1)
            (st.results.set k ⟨tracks[k], TrackStatus.skipped, some m⟩) =
            foundCands env tracks k st.results := by
          rw [foundCands_succ,
            foundCands_congr (hstepj ⟨tracks[k], TrackStatus.skipped, some m⟩)]
          simp [hfkgen ⟨tracks[k], TrackStatus.skipped, some m⟩]
        rw [processTrack_skip_key ht hr hs h1 h2]
        obtain ⟨c1, c2, c3, c4, c5, c6⟩ :=
          loopInv_fields_common h hk hr ⟨tracks[k], TrackStatus.skipped, some m⟩
            (by simp) (by simp) (by rw [ht])
        refine ⟨c1, c2, c3, c4, ?_, ?_, ?_, c5, c6, ?_, ?_, ?_, ?_⟩
        · dsimp only
          rw [h.countF]
          omega
        · dsimp only
          rw [h.countS]
          omega
        · dsimp only
          rw [h.countN]
          omega
        · exact h.idsSup
        · dsimp only
          rw [hfc]
          exact h.toAddChar
        · dsimp only
          rw [hfc]
          exact h.foundNodup
        · dsimp only
          rw [hfc]
          exact h.foundInIds
    -- skipped-by-id branch
    · have hcF := countP_set (p := fun r => r.status == TrackStatus.found)
        st.results k ⟨tracks[k], TrackStatus.skipped, some m⟩ _ hr
      have hcS := countP_set (p := fun r => r.status == TrackStatus.skipped)
        st.results k ⟨tracks[k], TrackStatus.skipped, some m⟩ _ hr
      have hcN := countP_set (p := fun r => r.status == TrackStatus.notFound)
        st.results k ⟨tracks[k], TrackStatus.skipped, some m⟩ _ hr
      simp only [show ((⟨tracks[k], TrackStatus.pending, none⟩ :
          SyncTrackResult).status == TrackStatus.found) = false from rfl,
        show ((⟨tracks[k], TrackStatus.pending, none⟩ :
          SyncTrackResult).status == TrackStatus.skipped) = false from rfl,
        show ((⟨tracks[k], TrackStatus.pending, none⟩ :
          SyncTrackResult).status == TrackStatus.notFound) = false from rfl,
        show ((⟨tracks[k], TrackStatus.skipped, some m⟩ :
          SyncTrackResult).status == TrackStatus.found) = false from rfl,
        show ((⟨tracks[k], TrackStatus.skipped, some m⟩ :
          SyncTrackResult).status == TrackStatus.skipped) = true from rfl,
        show ((⟨tracks[k], TrackStatus.skipped, some m⟩ :
          SyncTrackResult).status == TrackStatus.notFound) = false from rfl,
        if_true, if_false, Bool.false_eq_true] at hcF hcS hcN
      have hfc : foundCands env tracks (k + 1)
          (st.results.set k ⟨tracks[k], TrackStatus.skipped, some m⟩) =
          foundCands env tracks k st.results := by
        rw [foundCands_succ,
          foundCands_congr (hstepj ⟨tracks[k], TrackStatus.skipped, some m⟩)]
        simp [hfkgen ⟨tracks[k], TrackStatus.skipped, some m⟩]
      rw [processTrack_skip_id ht hr hs h1]
      obtain ⟨c1, c2, c3, c4, c5, c6⟩ :=
        loopInv_fields_common h hk hr ⟨tracks[k], TrackStatus.skipped, some m⟩
          (by simp) (by simp) (by rw [ht])
      refine ⟨c1, c2, c3, c4, ?_, ?_, ?_, c5, c6, ?_, ?_, ?_, ?_⟩
      · dsimp only
        rw [h.countF]
        omega
      · dsimp only
        rw [h.countS]
        omega
      · dsimp only
        rw [h.countN]
        omega
      · exact h.idsSup
      · dsimp only
        rw [hfc]
        exact h.toAddChar
      · dsimp only
        rw [hfc]
        exact h.foundNodup
      · dsimp only
        rw [hfc]
        exact h.foundInIds

/-! ## The invariant along the whole loop -/

theorem loopInv_stateAt (env : SpotifyEnv) (tracks : List AppleTrack)
    (ex : ExistingIndex) :
    ∀ k, k ≤ tracks.length → LoopInv env tracks ex k (stateAt env tracks ex k) := by
  intro k
  induction k with
  | zero =>
    intro _
    rw [stateAt_zero]
    exact loopInv_zero env tracks ex
  | succ i ih =>
    intro hi
    rw [stateAt_succ]
    exact loopInv_step (ih (by omega)) (by omega)

/-- The pending record at an unprocessed index. -/
theorem stateAt_pending (env : SpotifyEnv) (tracks : List AppleTrack)
    (ex : ExistingIndex) {k : Nat} (hk : k < tracks.length) :
    (stateAt env tracks ex k).results[k]? =
      some (⟨tracks[k], TrackStatus.pending, none⟩ : SyncTrackResult) := by
  have hInv := loopInv_stateAt env tracks ex k (by omega)
  rw [hInv.tailInit k (le_refl k), initResults_getElem? tracks k,
    List.getElem?_eq_getElem hk]
  rfl

/-- A processed index's record never changes afterwards. -/
theorem stateAt_stable (env : SpotifyEnv) (tracks : List AppleTrack)
    (ex : ExistingIndex) {j : Nat} :
    ∀ (k k' : Nat), k ≤ k' → k' ≤ tracks.length → j < k →
      (stateAt env tracks ex k').results[j]? =
        (stateAt env tracks ex k).results[j]? := by
  intro k k'
  induction k' with
  | zero =>
    intro h1 _ h3
    omega
  | succ i ih =>
    intro h1 h2 h3
    by_cases hki : k = i + 1
    · rw [hki]
    · have ht : tracks[i]? = some tracks[i] := List.getElem?_eq_getElem (by omega)
      have hri := stateAt_pending env tracks ex (k := i) (by omega)
      rw [stateAt_succ, processTrack_results_ne ht hri (by omega)]
      exact ih (by omega) (by omega) h3

/-- The dedup index only ever grows along the run. -/
theorem stateAt_ids_mono (env : SpotifyEnv) (tracks : List AppleTrack)
    (ex : ExistingIndex) {x : String} :
    ∀ (k k' : Nat), k ≤ k' → k' ≤ tracks.length →
      x ∈ (stateAt env tracks ex k).existing.ids →
      x ∈ (stateAt env tracks ex k').existing.ids := by
  intro k k'
  induction k' with
  | zero =>
    intro h1 _ hx
    have : k = 0 := by omega
    rw [← this]
    exact hx
  | succ i ih =>
    intro h1 h2 hx
    by_cases hki : k = i + 1
    · rw [← hki]
      exact hx
    · have ht : tracks[i]? = some tracks[i] := List.getElem?_eq_getElem (by omega)
      have hri := stateAt_pending env tracks ex (k := i) (by omega)
      rw [stateAt_succ]
      exact processTrack_ids_mono ht hri (ih (by omega) (by omega) hx)

/-! ## Counting the three terminal statuses -/

theorem countP_three_partition (rs : List SyncTrackResult)
    (h : ∀ r ∈ rs, r.status = TrackStatus.found ∨ r.status = TrackStatus.skipped ∨
      r.status = TrackStatus.notFound) :
    rs.countP (fun r => r.status == TrackStatus.found)
      + rs.countP (fun r => r.status == TrackStatus.skipped)
      + rs.countP (fun r => r.status == TrackStatus.notFound) = rs.length := by
  induction rs with
  | nil => rfl
  | cons r rest ih =>
    have hr := h r (List.mem_cons_self r rest)
    have hrec := ih (fun a ha => h a (List.mem_cons_of_mem _ ha))
    simp only [List.countP_cons, List.length_cons]
    rcases hr with h' | h' | h' <;> rw [h'] <;> simp <;> omega

/-! ## Where candidates come from -/

/-- Every candidate the matcher returns is (the candidate record of) a raw
track in some search response of the environment. -/
theorem searchTrack_from_env {env : SpotifyEnv} {title artist : String}
    {c : SpotifyTrack} (h : searchTrack env title artist = some c) :
    ∃ q l r t, env.searchResp q l = .ok r ∧ t ∈ r ∧ c = candOf t := by
  unfold searchTrack searchTrackE at h
  rcases h5 : env.searchResp ("track:" ++ title ++ " artist:" ++ artist) 5 with e | tracks
  · rw [h5] at h
    cases h
  · rw [h5] at h
    rcases tracks with _ | ⟨t0, rest⟩
    · dsimp only at h
      rcases h3 : env.searchResp (title ++ " " ++ artist) 3 with e | tracks2
      · rw [h3] at h
        cases h
      · rw [h3] at h
        rcases tracks2 with _ | ⟨s0, rest2⟩
        · cases h
        · refine ⟨_, _, _, s0, h3, List.mem_cons_self s0 rest2, ?_⟩
          exact (Option.some_inj.1 h).symm
    · dsimp only at h
      rcases hf : (t0 :: rest).find? (goodMatch (normalize title) (normalize artist))
          with _ | t
      · rw [hf] at h
        refine ⟨_, _, _, t0, h5, List.mem_cons_self t0 rest, ?_⟩
        exact (Option.some_inj.1 h).symm
      · rw [hf] at h
        refine ⟨_, _, _, t, h5, List.mem_of_find?_eq_some hf, ?_⟩
        exact (Option.some_inj.1 h).symm

/-- Every enqueued found-candidate is a matcher result. -/
theorem foundCands_mem_search {env : SpotifyEnv} {tracks : List AppleTrack}
    {k : Nat} {rs : List SyncTrackResult} {m : SpotifyTrack}
    (h : m ∈ foundCands env tracks k rs) :
    ∃ a b, searchTrack env a b = some m := by
  unfold foundCands at h
  obtain ⟨j, _, hj⟩ := List.mem_filterMap.1 h
  rcases hr : rs[j]? with _ | r
  · rw [hr] at hj
    cases hj
  · rw [hr] at hj
    dsimp only at hj
    by_cases hst : r.status = TrackStatus.found
    · rw [if_pos hst] at hj
      unfold searchAt at hj
      rcases ht : tracks[j]? with _ | t
      · rw [ht] at hj
        cases hj
      · rw [ht] at hj
        exact ⟨t.title, t.artist, hj⟩
    · rw [if_neg hst] at hj
      cases hj

theorem syncRun_eq (env : SpotifyEnv) (tracks : List AppleTrack)
    (ex : ExistingIndex) :
    syncRun env tracks ex = stateAt env tracks ex tracks.length := rfl

/-- All records of a completed loop are terminally classified. -/
theorem syncRun_terminal (env : SpotifyEnv) (tracks : List AppleTrack)
    (ex : ExistingIndex) :
    ∀ r ∈ (syncRun env tracks ex).results,
      r.status = TrackStatus.found ∨ r.status = TrackStatus.skipped ∨
        r.status = TrackStatus.notFound := by
  intro r hrm
  have hInv := loopInv_stateAt env tracks ex tracks.length (le_refl _)
  rw [syncRun_eq] at hrm
  obtain ⟨j, hj⟩ := List.mem_iff_getElem?.1 hrm
  have hlt : j < (stateAt env tracks ex tracks.length).results.length := by
    by_contra hge
    rw [List.getElem?_eq_none (by omega)] at hj
    cases hj
  rw [hInv.rlen] at hlt
  exact hInv.headTerm j r hlt hj

/-- C1: in every run of `syncPlaylist` that completes without a fatal
error, the returned summary satisfies `added + skipped + notFound = total`
with `total` the length of the input list, and `added` equals the number
of outcomes whose final status is `found` (the code derives `added` from
the length of the enqueued-URI list, and that length always equals the
found count). -/
theorem claim_C1_summary_counts (env : SpotifyEnv) (tracks : List AppleTrack)
    (s : SyncSummary) (hok : syncPlaylist env tracks = Except.ok s) :
    s.added + s.skipped + s.notFound = s.total ∧ s.total = tracks.length ∧
      s.added = s.results.countP (fun r => r.status == TrackStatus.found) := by
  unfold syncPlaylist at hok
  rcases hpg : env.pages with e | pgs
  · rw [hpg] at hok
    cases hok
  · rw [hpg] at hok
    dsimp only at hok
    rcases hcb : commitBatches env
        (syncRun env tracks (getExistingPlaylistTracks pgs)).toAdd with e | u
    · rw [hcb] at hok
      cases hok
    · rw [hcb] at hok
      injection hok with hs
      subst hs
      have hInv := loopInv_stateAt env tracks (getExistingPlaylistTracks pgs)
        tracks.length (le_refl _)
      have hterm := syncRun_terminal env tracks (getExistingPlaylistTracks pgs)
      have hpart := countP_three_partition
        (syncRun env tracks (getExistingPlaylistTracks pgs)).results hterm
      rw [syncRun_eq] at hpart
      rw [hInv.rlen] at hpart
      refine ⟨?_, rfl, ?_⟩
      · show (stateAt env tracks (getExistingPlaylistTracks pgs) tracks.length).toAdd.length
            + (stateAt env tracks (getExistingPlaylistTracks pgs) tracks.length).skipped
            + (stateAt env tracks (getExistingPlaylistTracks pgs) tracks.length).notFound
            = tracks.length
        rw [hInv.countF, hInv.countS, hInv.countN]
        exact hpart
      · show (stateAt env tracks (getExistingPlaylistTracks pgs) tracks.length).toAdd.length
            = (stateAt env tracks (getExistingPlaylistTracks pgs)
                tracks.length).results.countP (fun r => r.status == TrackStatus.found)
        exact hInv.countF

/-- C4: in a completed (non-aborted) run every track's final status is one
of found/not_found/skipped (never pending or searching), the matched
candidate field of an outcome is set iff its status is found or skipped,
the summary's results array is the loop's final results array, and across
the emitted progress snapshots (and the final array) every track's status
only ever moves forward along
`pending → searching → {found, not_found, skipped}`. -/
theorem claim_C4_status_machine (env : SpotifyEnv) (tracks : List AppleTrack)
    (pgs : List (List (Option PlaylistEntry))) (s : SyncSummary)
    (hpg : env.pages = Except.ok pgs)
    (hok : syncPlaylist env tracks = Except.ok s) :
    (∀ r ∈ s.results,
      r.status = TrackStatus.found ∨ r.status = TrackStatus.skipped ∨
        r.status = TrackStatus.notFound) ∧
    (∀ r ∈ s.results,
      r.spotifyTrack ≠ none ↔
        (r.status = TrackStatus.found ∨ r.status = TrackStatus.skipped)) ∧
    s.results = (syncRun env tracks (getExistingPlaylistTracks pgs)).results ∧
    List.Chain' resultsLE
      ((syncRun env tracks (getExistingPlaylistTracks pgs)).snapshots.map Prod.fst
        ++ [(syncRun env tracks (getExistingPlaylistTracks pgs)).results]) := by
  unfold syncPlaylist at hok
  rw [hpg] at hok
  dsimp only at hok
  rcases hcb : commitBatches env
      (syncRun env tracks (getExistingPlaylistTracks pgs)).toAdd with e | u
  · rw [hcb] at hok
    cases hok
  · rw [hcb] at hok
    injection hok with hs
    subst hs
    have hInv := loopInv_stateAt env tracks (getExistingPlaylistTracks pgs)
      tracks.length (le_refl _)
    refine ⟨syncRun_terminal env tracks _, ?_, rfl, ?_⟩
    · intro r hrm
      exact hInv.matched r hrm
    · rw [syncRun_eq]
      exact hInv.chain

/-- C2, amended: two source tracks of the same run resolving to the same
destination id (not already in the destination playlist) are deduped by
the eager insertion of the found candidate's id into the index: at most
one of them ends `found`, and when the earlier one ends `found` the later
one ends `skipped`; moreover, when distinct URIs never share an id in the
environment's responses, no URI is enqueued twice in one run. (The
unconditional "the later one ends skipped" fails — see the
counterexample — when the earlier one is itself skipped by a
normalized-key match, since then no id is inserted.) -/
theorem claim_C2_within_run_dedup (env : SpotifyEnv) (tracks : List AppleTrack)
    (pgs : List (List (Option PlaylistEntry))) (s : SyncSummary)
    (i j : Nat) (ti tj : AppleTrack) (ci cj : SpotifyTrack)
    (huri : ∀ (q : String) (l : Nat) (r : List RawTrack)
        (q' : String) (l' : Nat) (r' : List RawTrack) (t t' : RawTrack),
      env.searchResp q l = Except.ok r → t ∈ r →
      env.searchResp q' l' = Except.ok r' → t' ∈ r' →
      t.uri = t'.uri → t.id = t'.id)
    (hij : i < j) (hj : j < tracks.length)
    (hti : tracks[i]? = some ti) (htj : tracks[j]? = some tj)
    (hci : searchTrack env ti.title ti.artist = some ci)
    (hcj : searchTrack env tj.title tj.artist = some cj)
    (hid : ci.id = cj.id)
    (hpg : env.pages = Except.ok pgs)
    (hnotin : ci.id ∉ (getExistingPlaylistTracks pgs).ids)
    (hok : syncPlaylist env tracks = Except.ok s) :
    (∀ ri rj, s.results[i]? = some ri → s.results[j]? = some rj →
      (ri.status = TrackStatus.found → rj.status = TrackStatus.skipped) ∧
      ¬(ri.status = TrackStatus.found ∧ rj.status = TrackStatus.found)) ∧
    (syncRun env tracks (getExistingPlaylistTracks pgs)).toAdd.Nodup := by
  have hsres : s.results = (syncRun env tracks (getExistingPlaylistTracks pgs)).results :=
    (claim_C4_status_machine env tracks pgs s hpg hok).2.2.1
  have hInv := loopInv_stateAt env tracks (getExistingPlaylistTracks pgs)
    tracks.length (le_refl _)
  constructor
  · intro ri rj hri hrj
    rw [hsres, syncRun_eq] at hri hrj
    have hti' : tracks[i]? = some tracks[i] := List.getElem?_eq_getElem (by omega)
    have htj' : tracks[j]? = some tracks[j] := List.getElem?_eq_getElem (by omega)
    have htieq : tracks[i] = ti := by
      rw [hti'] at hti
      exact Option.some_inj.1 hti
    have htjeq : tracks[j] = tj := by
      rw [htj'] at htj
      exact Option.some_inj.1 htj
    have hci' : searchTrack env tracks[i].title tracks[i].artist = some ci := by
      rw [htieq]
      exact hci
    have hcj' : searchTrack env tracks[j].title tracks[j].artist = some cj := by
      rw [htjeq]
      exact hcj
    have hpi := stateAt_pending env tracks (getExistingPlaylistTracks pgs)
      (k := i) (by omega)
    have hpj := stateAt_pending env tracks (getExistingPlaylistTracks pgs)
      (k := j) (by omega)
    have hInvi := loopInv_stateAt env tracks (getExistingPlaylistTracks pgs)
      i (by omega)
    have hInvj := loopInv_stateAt env tracks (getExistingPlaylistTracks pgs)
      j (by omega)
    have hleni : i < (stateAt env tracks (getExistingPlaylistTracks pgs) i).results.length := by
      rw [hInvi.rlen]
      omega
    have hlenj : j < (stateAt env tracks (getExistingPlaylistTracks pgs) j).results.length := by
      rw [hInvj.rlen]
      omega
    have hstabi : (stateAt env tracks (getExistingPlaylistTracks pgs)
          tracks.length).results[i]? =
        (processTrack env tracks (stateAt env tracks (getExistingPlaylistTracks pgs) i)
          i).results[i]? := by
      rw [← stateAt_succ]
      exact stateAt_stable env tracks (getExistingPlaylistTracks pgs)
        (i + 1) tracks.length (by omega) (le_refl _) (by omega)
    have hstabj : (stateAt env tracks (getExistingPlaylistTracks pgs)
          tracks.length).results[j]? =
        (processTrack env tracks (stateAt env tracks (getExistingPlaylistTracks pgs) j)
          j).results[j]? := by
      rw [← stateAt_succ]
      exact stateAt_stable env tracks (getExistingPlaylistTracks pgs)
        (j + 1) tracks.length (by omega) (le_refl _) (by omega)
    have himp : ri.status = TrackStatus.found → rj.status = TrackStatus.skipped := by
      intro hfound
      -- the earlier track can only be `found` through the found branch,
      -- which inserts its candidate id into the index
      rcases h1i : (stateAt env tracks (getExistingPlaylistTracks pgs)
          i).existing.ids.contains ci.id with _ | _
      · rcases h2i : (stateAt env tracks (getExistingPlaylistTracks pgs)
            i).existing.normalized.contains
              (normalize ci.name ++ "|||" ++ normalize ci.artist) with _ | _
        · -- found branch at i: the id is now in the index
          have hmem : ci.id ∈ (stateAt env tracks (getExistingPlaylistTracks pgs)
              (i + 1)).existing.ids := by
            rw [stateAt_succ, processTrack_found hti' hpi hci' h1i h2i]
            exact List.mem_append_right _ (List.mem_singleton.2 rfl)
          have hmemj : cj.id ∈ (stateAt env tracks (getExistingPlaylistTracks pgs)
              j).existing.ids := by
            rw [← hid]
            exact stateAt_ids_mono env tracks (getExistingPlaylistTracks pgs)
              (i + 1) j (by omega) (by omega) hmem
          have hcontj : (stateAt env tracks (getExistingPlaylistTracks pgs)
              j).existing.ids.contains cj.id = true := List.elem_iff.2 hmemj
          rw [hstabj, processTrack_skip_id htj' hpj hcj' hcontj,
            List.getElem?_set_self hlenj] at hrj
          rw [← Option.some_inj.1 hrj]
        · -- skipped-by-key branch at i: contradicts ri being found
          rw [hstabi, processTrack_skip_key hti' hpi hci' h1i h2i,
            List.getElem?_set_self hleni] at hri
          rw [← Option.some_inj.1 hri] at hfound
          cases hfound
      · -- skipped-by-id branch at i: contradicts ri being found
        rw [hstabi, processTrack_skip_id hti' hpi hci' h1i,
          List.getElem?_set_self hleni] at hri
        rw [← Option.some_inj.1 hri] at hfound
        cases hfound
    refine ⟨himp, ?_⟩
    rintro ⟨hfi, hfj⟩
    rw [himp hfi] at hfj
    cases hfj
  · rw [syncRun_eq, hInv.toAddChar]
    have hpw : List.Pairwise (fun a b : SpotifyTrack => a.id ≠ b.id)
        (foundCands env tracks tracks.length
          (stateAt env tracks (getExistingPlaylistTracks pgs) tracks.length).results) :=
      List.pairwise_map.mp hInv.foundNodup
    have hpw' : List.Pairwise (fun a b : SpotifyTrack => a.uri ≠ b.uri)
        (foundCands env tracks tracks.length
          (stateAt env tracks (getExistingPlaylistTracks pgs) tracks.length).results) := by
      refine hpw.imp_of_mem ?_
      intro a b ha hb hne heq
      apply hne
      obtain ⟨qa, qb, hsa⟩ := foundCands_mem_search ha
      obtain ⟨qc, qd, hsb⟩ := foundCands_mem_search hb
      obtain ⟨q1, l1, r1, t1, hr1, ht1, hc1⟩ := searchTrack_from_env hsa
      obtain ⟨q2, l2, r2, t2, hr2, ht2, hc2⟩ := searchTrack_from_env hsb
      rw [hc1, hc2]
      show t1.id = t2.id
      refine huri q1 l1 r1 q2 l2 r2 t1 t2 hr1 ht1 hr2 ht2 ?_
      have : (candOf t1).uri = (candOf t2).uri := by
        rw [← hc1, ← hc2]
        exact heq
      exact this
    exact List.pairwise_map.mpr hpw'
theorem commitBatchesAux_ok {env : SpotifyEnv}
    (hc : ∀ uris, env.addItems uris = Except.ok ()) :
    ∀ (f : Nat) (uris : List String), commitBatchesAux env f uris = Except.ok () := by
  intro f
  induction f with
  | zero =>
    intro uris
    cases uris <;> rfl
  | succ g ih =>
    intro uris
    cases uris with
    | nil => rfl
    | cons u rest =>
      show (match env.addItems ((u :: rest).take 100) with
        | .error e => Except.error e
        | .ok _ => commitBatchesAux env g ((u :: rest).drop 100)) = Except.ok ()
      rw [hc ((u :: rest).take 100)]
      exact ih _

/-- C8: a remote-call failure while matching a single track is localized:
`searchTrack` catches it and returns null, that track's outcome becomes
`not_found`, and the run still completes with a summary covering the
remaining tracks (matcher failure is never run-fatal). -/
theorem claim_C8_matcher_failure_localized (env : SpotifyEnv)
    (tracks : List AppleTrack) (pgs : List (List (Option PlaylistEntry)))
    (i : Nat) (t : AppleTrack) (e : String)
    (hpg : env.pages = Except.ok pgs)
    (hti : tracks[i]? = some t)
    (herr : searchTrackE env t.title t.artist = Except.error e)
    (hcommit : ∀ uris, env.addItems uris = Except.ok ()) :
    searchTrack env t.title t.artist = none ∧
    ∃ s, syncPlaylist env tracks = Except.ok s ∧
      ∃ r, s.results[i]? = some r ∧ r.status = TrackStatus.notFound ∧
        r.appleTrack = t := by
  have hnone : searchTrack env t.title t.artist = none := by
    unfold searchTrack
    rw [herr]
  refine ⟨hnone, ?_⟩
  have hlt : i < tracks.length := by
    by_contra hge
    rw [List.getElem?_eq_none (by omega)] at hti
    cases hti
  have hti' : tracks[i]? = some tracks[i] := List.getElem?_eq_getElem hlt
  have htieq : tracks[i] = t := by
    rw [hti'] at hti
    exact Option.some_inj.1 hti
  have hok : syncPlaylist env tracks =
      Except.ok
        { total := tracks.length,
          added := (syncRun env tracks (getExistingPlaylistTracks pgs)).toAdd.length,
          skipped := (syncRun env tracks (getExistingPlaylistTracks pgs)).skipped,
          notFound := (syncRun env tracks (getExistingPlaylistTracks pgs)).notFound,
          results := (syncRun env tracks (getExistingPlaylistTracks pgs)).results } := by
    unfold syncPlaylist
    rw [hpg]
    dsimp only
    rw [show commitBatches env
        (syncRun env tracks (getExistingPlaylistTracks pgs)).toAdd = Except.ok ()
      from commitBatchesAux_ok hcommit _ _]
  refine ⟨_, hok, ?_⟩
  have hpi := stateAt_pending env tracks (getExistingPlaylistTracks pgs)
    (k := i) hlt
  have hInvi := loopInv_stateAt env tracks (getExistingPlaylistTracks pgs) i (by omega)
  have hleni : i < (stateAt env tracks (getExistingPlaylistTracks pgs)
      i).results.length := by
    rw [hInvi.rlen]
    omega
  have hsi : searchTrack env tracks[i].title tracks[i].artist = none := by
    rw [htieq]
    exact hnone
  have hstabi : (stateAt env tracks (getExistingPlaylistTracks pgs)
        tracks.length).results[i]? =
      (processTrack env tracks
        (stateAt env tracks (getExistingPlaylistTracks pgs) i) i).results[i]? := by
    rw [← stateAt_succ]
    exact stateAt_stable env tracks (getExistingPlaylistTracks pgs)
      (i + 1) tracks.length (by omega) (le_refl _) (by omega)
  refine ⟨⟨t, TrackStatus.notFound, none⟩, ?_, rfl, rfl⟩
  show (syncRun env tracks (getExistingPlaylistTracks pgs)).results[i]? = _
  rw [syncRun_eq, hstabi, processTrack_none hti' hpi hsi,
    List.getElem?_set_self hleni, htieq]

/-! ## Claim C6: batch-commit failure -/

/-- A concrete environment whose search always succeeds and whose batched
playlist POST always rejects. -/
def envCommitFail : SpotifyEnv :=
  { searchResp := fun _ _ => Except.ok [⟨"X", "a", ["b"], "uX"⟩],
    pages := Except.ok [],
    addItems := fun _ => Except.error "commit failed" }

/-- C6, counterexample: when the batch commit fails, the caller does *not*
receive a summary — `syncPlaylist` rejects with the commit error, so the
claim that "a caller hitting a commit failure still receives the summary
with the per-track classifications" is false: here one track is matched
and classified `found`, the commit fails, and the result is an error, not
a summary. -/
theorem claim_C6_counterexample :
    syncPlaylist envCommitFail [⟨"a", "b"⟩] = Except.error "commit failed" := rfl

/-- C6, amended: a batch-commit failure after all matching has completed
is run-fatal — `syncPlaylist` rejects with the commit error and no summary
is returned. The per-track classifications computed before the commit
remain in the loop's final state (every track terminally classified, with
the enqueued-URI count still equal to the found count), and were emitted
through the progress callback, even though the destination mutation did
not take effect. -/
theorem claim_C6_amended (env : SpotifyEnv) (tracks : List AppleTrack)
    (pgs : List (List (Option PlaylistEntry))) (e : String)
    (hpg : env.pages = Except.ok pgs)
    (hcb : commitBatches env
      (syncRun env tracks (getExistingPlaylistTracks pgs)).toAdd = Except.error e) :
    syncPlaylist env tracks = Except.error e ∧
    (∀ r ∈ (syncRun env tracks (getExistingPlaylistTracks pgs)).results,
      r.status = TrackStatus.found ∨ r.status = TrackStatus.skipped ∨
        r.status = TrackStatus.notFound) ∧
    (syncRun env tracks (getExistingPlaylistTracks pgs)).toAdd.length =
      (syncRun env tracks (getExistingPlaylistTracks pgs)).results.countP
        (fun r => r.status == TrackStatus.found) := by
  have hInv := loopInv_stateAt env tracks (getExistingPlaylistTracks pgs)
    tracks.length (le_refl _)
  refine ⟨?_, syncRun_terminal env tracks _, ?_⟩
  · unfold syncPlaylist
    rw [hpg]
    dsimp only
    rw [hcb]
  · rw [syncRun_eq]
    exact hInv.countF

/-- Witness for C6 (amended) at the concrete failing environment: the loop
classified the single track `found` yet the run rejects. -/
theorem claim_C6_witness :
    syncPlaylist envCommitFail [⟨"a", "b"⟩] = Except.error "commit failed" ∧
    (∀ r ∈ (syncRun envCommitFail [⟨"a", "b"⟩]
        (getExistingPlaylistTracks [])).results,
      r.status = TrackStatus.found ∨ r.status = TrackStatus.skipped ∨
        r.status = TrackStatus.notFound) :=
  ⟨(claim_C6_amended envCommitFail [⟨"a", "b"⟩] [] "commit failed" rfl rfl).1,
   (claim_C6_amended envCommitFail [⟨"a", "b"⟩] [] "commit failed" rfl rfl).2.1⟩

/-! ## spotifyFetch rate-limit handling (src/lib/spotify.ts lines 141-175) -/

/-- One HTTP response as seen by `spotifyFetch`'s handling: a 429 with the
optional numeric `Retry-After` header (in seconds), a success, or a non-ok
non-429 status. -/
inductive HttpResp
  | tooMany (retryAfter : Option Nat)
  | success (body : String)
  | failure (status : Nat)
deriving DecidableEq

/-- The retry loop of `spotifyFetch` over the successive responses the
server gives to the repeatedly reissued identical request: a 429 sleeps
and reissues, a success resolves with the body, any other non-ok response
throws its status. `none` models exhaustion of the given response list
while still retrying (the code would simply still be waiting — there is no
retry cap). -/
def resolveResponses : List HttpResp → Option (Except Nat String)
  | [] => none
  | HttpResp.tooMany _ :: rs => resolveResponses rs
  | HttpResp.success b :: _ => some (Except.ok b)
  | HttpResp.failure s :: _ => some (Except.error s)

/-- Total milliseconds slept before the call resolves:
`Number(response.headers.get("Retry-After") || 1) * 1000` per 429 (the
absent header defaults to 1 second). -/
def totalSleepMs : List HttpResp → Nat
  | HttpResp.tooMany ra :: rs => ra.getD 1 * 1000 + totalSleepMs rs
  | _ => 0

/-- An environment whose search endpoint is described at the level of raw
response streams (per query/limit), to connect `spotifyFetch`'s retry
behaviour with the orchestrator: `decodeSearch` abstracts JSON decoding of
a success body. -/
structure StreamEnv where
  searchStream : String → Nat → List HttpResp
  decodeSearch : String → List RawTrack
  pages : Except String (List (List (Option PlaylistEntry)))
  addItems : List String → Except String Unit

/-- The `SpotifyEnv` obtained by resolving every search stream through
`spotifyFetch`'s retry loop. -/
def SpotifyEnv.ofStream (e : StreamEnv) : SpotifyEnv :=
  { searchResp := fun q l =>
      match resolveResponses (e.searchStream q l) with
      | some (Except.ok b) => Except.ok (e.decodeSearch b)
      | some (Except.error s) => Except.error (toString s)
      | none => Except.error "no response",
    pages := e.pages,
    addItems := e.addItems }

/-- The same stream environment with one extra 429 served first for the
given query and limit. -/
def StreamEnv.with429 (e : StreamEnv) (q : String) (l : Nat) (ra : Option Nat) :
    StreamEnv :=
  { e with searchStream := fun q' l' =>
      if q' = q ∧ l' = l then HttpResp.tooMany ra :: e.searchStream q' l'
      else e.searchStream q' l' }

/-- C7: a 429 response makes the client sleep `Retry-After` seconds
(1 second when the header is absent) and reissue the identical request
with no retry cap: any finite prefix of 429s followed by a success
resolves to that success; a success resolves immediately; any other
non-success response is a hard failure with no retry; and a 429 served in
front of any search stream is invisible to `syncPlaylist`'s final
classification. -/
theorem claim_C7_rate_limit_retry :
    (∀ (ra : Option Nat) (rs : List HttpResp),
      resolveResponses (HttpResp.tooMany ra :: rs) = resolveResponses rs ∧
      totalSleepMs (HttpResp.tooMany ra :: rs) = ra.getD 1 * 1000 + totalSleepMs rs) ∧
    (∀ (b : String) (rs : List HttpResp),
      resolveResponses (HttpResp.success b :: rs) = some (Except.ok b)) ∧
    (∀ (s : Nat) (rs : List HttpResp),
      resolveResponses (HttpResp.failure s :: rs) = some (Except.error s)) ∧
    (∀ (ts : List HttpResp) (b : String) (rest : List HttpResp),
      (∀ r ∈ ts, ∃ ra, r = HttpResp.tooMany ra) →
      resolveResponses (ts ++ HttpResp.success b :: rest) = some (Except.ok b)) ∧
    (∀ (e : StreamEnv) (q : String) (l : Nat) (ra : Option Nat)
        (tracks : List AppleTrack),
      syncPlaylist (SpotifyEnv.ofStream (e.with429 q l ra)) tracks =
        syncPlaylist (SpotifyEnv.ofStream e) tracks) := by
  have h429 : ∀ (ra : Option Nat) (rs : List HttpResp),
      resolveResponses (HttpResp.tooMany ra :: rs) = resolveResponses rs :=
    fun _ _ => rfl
  refine ⟨fun ra rs => ⟨rfl, rfl⟩, fun b rs => rfl, fun s rs => rfl, ?_, ?_⟩
  · intro ts
    induction ts with
    | nil => intro b rest _; rfl
    | cons r ts ih =>
      intro b rest hts
      obtain ⟨ra, rfl⟩ := hts r (List.mem_cons_self r ts)
      rw [List.cons_append, h429]
      exact ih b rest (fun r hr => hts r (List.mem_cons_of_mem _ hr))
  · intro e q l ra tracks
    have henv : SpotifyEnv.ofStream (e.with429 q l ra) = SpotifyEnv.ofStream e := by
      unfold SpotifyEnv.ofStream StreamEnv.with429
      congr 1
      funext q' l'
      dsimp only
      by_cases hq : q' = q ∧ l' = l
      · rw [if_pos hq, h429]
      · rw [if_neg hq]
    rw [henv]

/-- Witness for C7 at a concrete response stream: two 429s (retry-after 3
and an absent header) then a success resolve to the success, with
4 seconds of sleeping in total. -/
theorem claim_C7_witness :
    resolveResponses [HttpResp.tooMany (some 3), HttpResp.tooMany none,
      HttpResp.success "body"] = some (Except.ok "body") ∧
    totalSleepMs [HttpResp.tooMany (some 3), HttpResp.tooMany none,
      HttpResp.success "body"] = 4000 := by
  constructor
  · refine claim_C7_rate_limit_retry.2.2.2.1
      [HttpResp.tooMany (some 3), HttpResp.tooMany none] "body" [] ?_
    intro r hr
    rcases List.mem_cons.1 hr with rfl | hr
    · exact ⟨some 3, rfl⟩
    · rcases List.mem_cons.1 hr with rfl | hr
      · exact ⟨none, rfl⟩
      · cases hr
  · rw [(claim_C7_rate_limit_retry.1 (some 3) _).2,
      (claim_C7_rate_limit_retry.1 none _).2]
    rfl

/-! ## Concrete witness environments -/

/-- Environment whose search returns no items and whose mutations
succeed. -/
def envAllMiss : SpotifyEnv :=
  { searchResp := fun _ _ => Except.ok [],
    pages := Except.ok [],
    addItems := fun _ => Except.ok () }

/-- The summary produced by `envAllMiss` for the single track `a` / `b`. -/
def summaryMiss : SyncSummary :=
  { total := 1, added := 0, skipped := 0, notFound := 1,
    results := [⟨⟨"a", "b"⟩, TrackStatus.notFound, none⟩] }

/-- Witness for C1 on a completed concrete run. -/
theorem claim_C1_witness :
    summaryMiss.added + summaryMiss.skipped + summaryMiss.notFound = summaryMiss.total ∧
    summaryMiss.total = ([⟨"a", "b"⟩] : List AppleTrack).length ∧
    summaryMiss.added =
      summaryMiss.results.countP (fun r => r.status == TrackStatus.found) :=
  claim_C1_summary_counts envAllMiss [⟨"a", "b"⟩] summaryMiss rfl

/-- Witness for C4 on a completed concrete run. -/
theorem claim_C4_witness :
    (∀ r ∈ summaryMiss.results,
      r.status = TrackStatus.found ∨ r.status = TrackStatus.skipped ∨
        r.status = TrackStatus.notFound) ∧
    (∀ r ∈ summaryMiss.results,
      r.spotifyTrack ≠ none ↔
        (r.status = TrackStatus.found ∨ r.status = TrackStatus.skipped)) ∧
    summaryMiss.results =
      (syncRun envAllMiss [⟨"a", "b"⟩] (getExistingPlaylistTracks [])).results ∧
    List.Chain' resultsLE
      ((syncRun envAllMiss [⟨"a", "b"⟩] (getExistingPlaylistTracks [])).snapshots.map
          Prod.fst
        ++ [(syncRun envAllMiss [⟨"a", "b"⟩] (getExistingPlaylistTracks [])).results]) :=
  claim_C4_status_machine envAllMiss [⟨"a", "b"⟩] [] summaryMiss rfl rfl

/-- Environment whose search throws. -/
def envSearchFail : SpotifyEnv :=
  { searchResp := fun _ _ => Except.error "boom",
    pages := Except.ok [],
    addItems := fun _ => Except.ok () }

/-- Witness for C8 on a concrete run whose only track's match throws. -/
theorem claim_C8_witness :
    searchTrack envSearchFail "a" "b" = none ∧
    ∃ s, syncPlaylist envSearchFail [⟨"a", "b"⟩] = Except.ok s ∧
      ∃ r, s.results[0]? = some r ∧ r.status = TrackStatus.notFound ∧
        r.appleTrack = ⟨"a", "b"⟩ :=
  claim_C8_matcher_failure_localized envSearchFail [⟨"a", "b"⟩] [] 0 ⟨"a", "b"⟩
    "boom" rfl rfl rfl (fun _ => rfl)

/-- Environment where two different source tracks resolve to the same
destination track id (and URI). -/
def envDup : SpotifyEnv :=
  { searchResp := fun q _ =>
      if q = "track:a artist:b" then Except.ok [⟨"X", "a", ["b"], "uX"⟩]
      else if q = "track:c artist:d" then Except.ok [⟨"X", "c2", ["d"], "uX"⟩]
      else Except.ok [],
    pages := Except.ok [],
    addItems := fun _ => Except.ok () }

/-- The summary produced by `envDup` on its two duplicate-resolving
tracks: the first is found, the second skipped. -/
def summaryDup : SyncSummary :=
  { total := 2, added := 1, skipped := 1, notFound := 0,
    results := [⟨⟨"a", "b"⟩, TrackStatus.found, some ⟨"X", "a", "b", "uX"⟩⟩,
                ⟨⟨"c", "d"⟩, TrackStatus.skipped, some ⟨"X", "c2", "d", "uX"⟩⟩] }

theorem envDup_id_of_mem :
    ∀ (q : String) (l : Nat) (r : List RawTrack) (t : RawTrack),
      envDup.searchResp q l = Except.ok r → t ∈ r → t.id = "X" := by
  intro q l r t hq htm
  unfold envDup at hq
  dsimp only at hq
  by_cases h1 : q = "track:a artist:b"
  · rw [if_pos h1] at hq
    injection hq with hq
    rw [← hq] at htm
    rcases List.mem_cons.1 htm with rfl | htm
    · rfl
    · cases htm
  · rw [if_neg h1] at hq
    by_cases h2 : q = "track:c artist:d"
    · rw [if_pos h2] at hq
      injection hq with hq
      rw [← hq] at htm
      rcases List.mem_cons.1 htm with rfl | htm
      · rfl
      · cases htm
    · rw [if_neg h2] at hq
      injection hq with hq
      rw [← hq] at htm
      cases htm

/-- Witness for C2 on a concrete run where both tracks resolve to the
destination track `X`: the statuses come out found then skipped, and the
enqueued URI list has no duplicates. -/
theorem claim_C2_witness :
    (∀ ri rj, summaryDup.results[0]? = some ri → summaryDup.results[1]? = some rj →
      (ri.status = TrackStatus.found → rj.status = TrackStatus.skipped) ∧
      ¬(ri.status = TrackStatus.found ∧ rj.status = TrackStatus.found)) ∧
    (syncRun envDup [⟨"a", "b"⟩, ⟨"c", "d"⟩]
      (getExistingPlaylistTracks [])).toAdd.Nodup :=
  claim_C2_within_run_dedup envDup [⟨"a", "b"⟩, ⟨"c", "d"⟩] [] summaryDup
    0 1 ⟨"a", "b"⟩ ⟨"c", "d"⟩ ⟨"X", "a", "b", "uX"⟩ ⟨"X", "c2", "d", "uX"⟩
    (fun q l r q' l' r' t t' h1 h2 h3 h4 _ => by
      rw [envDup_id_of_mem q l r t h1 h2, envDup_id_of_mem q' l' r' t' h3 h4])
    (by decide) (by decide) rfl rfl rfl rfl rfl rfl (by decide) rfl

/-- Environment for the C2 counterexample: both source tracks resolve to
the destination track `X` (which the destination playlist does not
contain), but the destination playlist already holds a *different* track
`Z` whose normalized key collides with the first candidate's key. -/
def envKeyCollide : SpotifyEnv :=
  { searchResp := fun q _ =>
      if q = "track:a artist:b" then Except.ok [⟨"X", "a", ["b"], "uX"⟩]
      else if q = "track:c artist:d" then Except.ok [⟨"X", "c2", ["d"], "uX2"⟩]
      else Except.ok [],
    pages := Except.ok [[some ⟨some "Z", "a", ["b"]⟩]],
    addItems := fun _ => Except.ok () }

/-- The summary `envKeyCollide` produces: the earlier track is skipped (by
normalized key, against the pre-existing track `Z`), and the later track —
resolving to the same id `X` — ends `found`, not `skipped`. -/
def summaryKeyCollide : SyncSummary :=
  { total := 2, added := 1, skipped := 1, notFound := 0,
    results := [⟨⟨"a", "b"⟩, TrackStatus.skipped, some ⟨"X", "a", "b", "uX"⟩⟩,
                ⟨⟨"c", "d"⟩, TrackStatus.found, some ⟨"X", "c2", "d", "uX2"⟩⟩] }

/-- C2, counterexample: two source tracks of one run resolve to the same
destination id `X`, which the destination playlist does not contain, yet
the later one ends `found` rather than `skipped` — because the earlier one
was skipped by a normalized-key match, so its candidate id was never
inserted into the dedup index. The claim's "the later one ends with
status skipped" is false as an unconditional statement. -/
theorem claim_C2_counterexample :
    searchTrack envKeyCollide "a" "b" = some ⟨"X", "a", "b", "uX"⟩ ∧
    searchTrack envKeyCollide "c" "d" = some ⟨"X", "c2", "d", "uX2"⟩ ∧
    ("X" ∉ (getExistingPlaylistTracks [[some ⟨some "Z", "a", ["b"]⟩]]).ids) ∧
    syncPlaylist envKeyCollide [⟨"a", "b"⟩, ⟨"c", "d"⟩] =
      Except.ok summaryKeyCollide ∧
    summaryKeyCollide.results[1]? =
      some ⟨⟨"c", "d"⟩, TrackStatus.found, some ⟨"X", "c2", "d", "uX2"⟩⟩ := by
  refine ⟨rfl, rfl, ?_, rfl, rfl⟩
  decide

end SyncSpec
